import Mathlib

/-!
Verification of the order-statistics red-black tree implemented in
include/profiling/RedBlackTree.hpp and of the median routine of
include/profiling/Stopwatch.hpp, via a functional shallow embedding.

The C++ tree is a pointer structure with a shared sentinel node m_nil:
every absent child/parent is represented by the sentinel, the sentinel is
BLACK, its size field is 0 and its left/right/parent fields point to
itself.  We embed a tree as an inductive value carrying the stored fields
of each node (color, the maintained size field, children, key); the
sentinel is the constructor nil.  Parent pointers are represented by
contexts (type Ctx below): a Ctx lists the frames between a node and the
root, which is exactly the information the parent chain provides.
The default comparator std::less is embedded as the strict order of a
LinearOrder; equal(a,b) = !(a<b) && !(b<a) coincides with a = b there.
-/

namespace Profiling

/-- Node colors as in the source: RED = 0 (false), BLACK = 1 (true). -/
def RED : Bool := false

/-- BLACK = 1 (true) in the source. -/
def BLACK : Bool := true

/-- A tree: the sentinel m_nil, or a real node with the stored fields
color, size (the maintained order-statistics field), left child, key and
right child. -/
inductive Tree (α : Type) where
  | nil : Tree α
  | node (color : Bool) (size : Nat) (l : Tree α) (key : α) (r : Tree α) : Tree α
deriving DecidableEq

namespace Tree

variable {α : Type}

/-- Pointer test x == m_nil of the source. -/
def isNil : Tree α → Bool
  | nil => true
  | node _ _ _ _ _ => false

/-- Reading x->color.  The sentinel is BLACK and is never recolored by the
source (asserted at the end of erase), so the sentinel case is constant. -/
def rootColor : Tree α → Bool
  | nil => BLACK
  | node c _ _ _ _ => c

/-- Reading x->size.  The sentinel's size field is 0 and is never written
(updateSize walks strictly between its bounds and rotations only write the
two real pivot nodes), so guards of the form `if (x != m_nil)` around size
reads/writes in the source can be dropped without changing any value. -/
def sz : Tree α → Nat
  | nil => 0
  | node _ s _ _ _ => s

/-- Reading x->left.  The sentinel's left field points to itself. -/
def leftT : Tree α → Tree α
  | nil => nil
  | node _ _ l _ _ => l

/-- Reading x->right.  The sentinel's right field points to itself. -/
def rightT : Tree α → Tree α
  | nil => nil
  | node _ _ _ _ r => r

/-- The key stored at a position; none for the sentinel.  A ConstIterator
exposes exactly the key of the node it holds (operator*), and in a tree
with pairwise distinct keys a real node is determined by its key, so we
model iterator results by this value. -/
def rootKey : Tree α → Option α
  | nil => none
  | node _ _ _ k _ => some k

/-- In-order list of keys. -/
def flatten : Tree α → List α
  | nil => []
  | node _ _ l k r => flatten l ++ k :: flatten r

/-- Actual number of real nodes (not the stored field). -/
def realSize : Tree α → Nat
  | nil => 0
  | node _ _ l _ r => 1 + realSize l + realSize r

/-- Size invariant of the spec: every real node's stored size field equals
1 + left.size + right.size with the sentinel contributing 0; equivalently
the stored field equals the real subtree node count everywhere. -/
def SizeOk : Tree α → Prop
  | nil => True
  | node _ s l _ r => s = 1 + realSize l + realSize r ∧ SizeOk l ∧ SizeOk r

/-- BST ordering invariant of the spec, in bounds form. -/
def Ordered [LinearOrder α] : Tree α → Prop
  | nil => True
  | node _ _ l k r =>
      (∀ x ∈ flatten l, x < k) ∧ (∀ x ∈ flatten r, k < x) ∧ Ordered l ∧ Ordered r

/-- Red-black validity with black-height h: a RED real node has BLACK
children, and every path from the node to a descendant sentinel passes
the same number h of BLACK real nodes. -/
inductive IsRB : Tree α → Nat → Prop where
  | nil : IsRB nil 0
  | red {l r : Tree α} {s : Nat} {k : α} {h : Nat} :
      IsRB l h → IsRB r h → rootColor l = BLACK → rootColor r = BLACK →
      IsRB (node RED s l k r) h
  | black {l r : Tree α} {s : Nat} {k : α} {h : Nat} :
      IsRB l h → IsRB r h → IsRB (node BLACK s l k r) (h + 1)

end Tree

open Tree

/-- A context records everything between a position and the root: each
frame is the node above, minus the subtree the position lives in, and
tells whether the position is its left or right child.  This is the
information the parent pointers of the source provide. -/
inductive Ctx (α : Type) where
  | root : Ctx α
  | left  (parent : Ctx α) (color : Bool) (size : Nat) (key : α) (r : Tree α) : Ctx α
  | right (parent : Ctx α) (color : Bool) (size : Nat) (l : Tree α) (key : α) : Ctx α
deriving DecidableEq

namespace Ctx

variable {α : Type}

/-- Rebuild the whole tree from a position and its context. -/
def plug : Ctx α → Tree α → Tree α
  | root, t => t
  | left p c s k r, t => plug p (Tree.node c s t k r)
  | right p c s l k, t => plug p (Tree.node c s l k t)

/-- Number of frames (ancestors of the position). -/
def depth : Ctx α → Nat
  | root => 0
  | left p _ _ _ _ => depth p + 1
  | right p _ _ _ _ => depth p + 1

/-- Keys strictly before the position's subtree, in order. -/
def ctxL : Ctx α → List α
  | root => []
  | left p _ _ _ _ => ctxL p
  | right p _ _ l k => ctxL p ++ flatten l ++ [k]

/-- Keys strictly after the position's subtree, in order. -/
def ctxR : Ctx α → List α
  | root => []
  | left p _ _ k r => k :: flatten r ++ ctxR p
  | right p _ _ _ _ => ctxR p

/-- updateSize(start, m_nil, 1) of insert: every ancestor of the position,
from its parent up to the root, gains 1 in its size field. -/
def incSizes : Ctx α → Ctx α
  | root => root
  | left p c s k r => left (incSizes p) c (s + 1) k r
  | right p c s l k => right (incSizes p) c (s + 1) l k

/-- updateSize(z->parent, m_nil, -1) of erase: every ancestor of the
position loses 1 in its size field (size_t arithmetic; under the size
invariant every ancestor's field is positive, so ordinary subtraction). -/
def decSizes : Ctx α → Ctx α
  | root => root
  | left p c s k r => left (decSizes p) c (s - 1) k r
  | right p c s l k => right (decSizes p) c (s - 1) l k

end Ctx

open Ctx

variable {α : Type}

/-- search (RedBlackTree.hpp lines 486-497): descend from the root; stop
at the sentinel or at a node whose key is not notEqual to the argument
(notEqual(a,b) = CMP(a,b) | CMP(b,a), so stopping means neither a < b nor
b < a, written as the final else branch). -/
def search [LinearOrder α] : Tree α → α → Tree α
  | Tree.nil, _ => Tree.nil
  | Tree.node c s l k r, key =>
    if key < k then search l key
    else if k < key then search r key
    else Tree.node c s l k r

/-- find = ConstIterator around search; we expose the key it dereferences
to (none for the end iterator). -/
def findKey [LinearOrder α] (t : Tree α) (key : α) : Option α :=
  rootKey (search t key)

/-- Loop of orderOfKey (lines 342-361), with `current` as accumulator.
On the branch CMP(key, x->key): current--, current -= x->right->size, go
left; otherwise go right.  When the loop stops the source subtracts
x->right->size and 1 more if x is real; when x is the sentinel both
adjustments read/test the sentinel itself and do nothing, which is the
nil case here. -/
def orderOfKeyGo [LinearOrder α] (key : α) : Nat → Tree α → Nat
  | current, Tree.nil => current
  | current, Tree.node _ _ l k r =>
    if key < k then orderOfKeyGo key (current - 1 - sz r) l
    else if k < key then orderOfKeyGo key current r
    else current - sz r - 1

/-- orderOfKey: starts with current = m_root->size. -/
def orderOfKey [LinearOrder α] (t : Tree α) (key : α) : Nat :=
  orderOfKeyGo key (sz t) t

/-- Loop of findByOrder (lines 369-385): `current` is the in-order index
of the current node, maintained from the stored size fields.  Going left:
current -= x->left->size, x = x->left, current += x->left->size.  Going
right: x = x->right, current += 1 + x->left->size. -/
def findByOrderGo (order : Nat) : Nat → Tree α → Tree α
  | _, Tree.nil => Tree.nil
  | current, Tree.node c s l k r =>
    if current = order then Tree.node c s l k r
    else if order < current then findByOrderGo order (current - sz l + sz (leftT l)) l
    else findByOrderGo order (current + 1 + sz (leftT r)) r

/-- findByOrder: starts at the root with current = m_root->left->size. -/
def findByOrder (t : Tree α) (order : Nat) : Tree α :=
  findByOrderGo order (sz (leftT t)) t

/-- The key the iterator returned by findByOrder dereferences to (none
when it is the end iterator, i.e. the sentinel). -/
def findByOrderKey (t : Tree α) (order : Nat) : Option α :=
  rootKey (findByOrder t order)

/-- min(Node*) (lines 468-475): if x is real, follow left children while
they are real. -/
def minNode : Tree α → Tree α
  | Tree.nil => Tree.nil
  | Tree.node c s l k r => if isNil l then Tree.node c s l k r else minNode l

/-- max(Node*) (lines 477-484). -/
def maxNode : Tree α → Tree α
  | Tree.nil => Tree.nil
  | Tree.node c s l k r => if isNil r then Tree.node c s l k r else maxNode r

/-- The climb loop of successor (lines 447-451): while x is real, if x is
its parent's left child return the parent, else move up.  When the walk
reaches the root, the next step compares x against m_nil->left = m_nil
and then moves to the sentinel, ending the loop with the sentinel as the
result. -/
def succClimb : Ctx α → Option α
  | Ctx.root => none
  | Ctx.left _ _ _ k _ => some k
  | Ctx.right p _ _ _ _ => succClimb p

/-- successor (lines 442-453), at a position given by its context.  For
x = m_nil the first test reads m_nil->right = m_nil and the climb loop's
guard x != m_nil fails at once, so the result is the sentinel whatever
the parent field holds. -/
def successorAt (ctx : Ctx α) : Tree α → Option α
  | Tree.nil => none
  | Tree.node _ _ _ _ r => if isNil r then succClimb ctx else rootKey (minNode r)

/-- The climb loop of predecessor (lines 460-464), mirrored. -/
def predClimb : Ctx α → Option α
  | Ctx.root => none
  | Ctx.right _ _ _ _ k => some k
  | Ctx.left p _ _ _ _ => predClimb p

/-- predecessor (lines 455-466), mirrored from successor. -/
def predecessorAt (ctx : Ctx α) : Tree α → Option α
  | Tree.nil => none
  | Tree.node _ _ l _ _ => if isNil l then predClimb ctx else rootKey (maxNode l)

/-- Writing x->color = c.  The source never executes this on the sentinel
(asserted BLACK at the end of erase), so the sentinel case is the
identity. -/
def setColor (c : Bool) : Tree α → Tree α
  | Tree.nil => Tree.nil
  | Tree.node _ s l k r => Tree.node c s l k r

/-- rotateLeft (lines 517-539) acting on the subtree rooted at the pivot
x; only called when x->right is real.  Pointer relinking becomes the
rebuilt node; the two size updates are exactly the source's:
y->size += x->left->size (sentinel contributes 0), y->size++,
x->size -= y->right->size, x->size--. -/
def rotateLeft : Tree α → Tree α
  | Tree.node xc xs a xk (Tree.node yc ys b yk c) =>
      Tree.node yc (ys + sz a + 1) (Tree.node xc (xs - sz c - 1) a xk b) yk c
  | t => t

/-- rotateRight (lines 541-563), the mirror image. -/
def rotateRight : Tree α → Tree α
  | Tree.node xc xs (Tree.node yc ys b yk c) xk a =>
      Tree.node yc (ys + sz a + 1) b yk (Tree.node xc (xs - sz b - 1) c xk a)
  | t => t

/-- fixUpInsert (lines 586-625) as a recursion on the context of z.  The
loop guard z->parent->color == RED reads the innermost frame (the
sentinel parent of the root is BLACK).  Every loop exit is followed by
m_root->color = BLACK, i.e. setColor BLACK of the rebuilt tree.  The
uncle-RED cases recolor and continue from the grandparent; the uncle
BLACK cases do the (possibly doubled) rotation and then the loop stops,
because the new parent of z is BLACK.  A red parent sitting directly
below the root cannot occur (the root is BLACK before the fixup starts
and stays so until z's parent), so the pctx = root case exits. -/
def fixUpInsert : Ctx α → Tree α → Tree α
  | Ctx.root, z => setColor BLACK z
  | Ctx.left pctx pc ps pk pr, z =>
    if pc = RED then
      match pctx with
      | Ctx.root => setColor BLACK (Ctx.plug (Ctx.left pctx pc ps pk pr) z)
      | Ctx.left gctx _ gs gk gu =>
        if rootColor gu = RED then
          fixUpInsert gctx
            (Tree.node RED gs (Tree.node BLACK ps z pk pr) gk (setColor BLACK gu))
        else
          setColor BLACK (Ctx.plug gctx
            (rotateRight (Tree.node RED gs (Tree.node BLACK ps z pk pr) gk gu)))
      | Ctx.right gctx _ gs gl gk =>
        if rootColor gl = RED then
          fixUpInsert gctx
            (Tree.node RED gs (setColor BLACK gl) gk (Tree.node BLACK ps z pk pr))
        else
          setColor BLACK (Ctx.plug gctx
            (rotateLeft (Tree.node RED gs gl gk
              (setColor BLACK (rotateRight (Tree.node RED ps z pk pr))))))
    else setColor BLACK (Ctx.plug (Ctx.left pctx pc ps pk pr) z)
  | Ctx.right pctx pc ps pl pk, z =>
    if pc = RED then
      match pctx with
      | Ctx.root => setColor BLACK (Ctx.plug (Ctx.right pctx pc ps pl pk) z)
      | Ctx.left gctx _ gs gk gu =>
        if rootColor gu = RED then
          fixUpInsert gctx
            (Tree.node RED gs (Tree.node BLACK ps pl pk z) gk (setColor BLACK gu))
        else
          setColor BLACK (Ctx.plug gctx
            (rotateRight (Tree.node RED gs
              (setColor BLACK (rotateLeft (Tree.node RED ps pl pk z))) gk gu)))
      | Ctx.right gctx _ gs gl gk =>
        if rootColor gl = RED then
          fixUpInsert gctx
            (Tree.node RED gs (setColor BLACK gl) gk (Tree.node BLACK ps pl pk z))
        else
          setColor BLACK (Ctx.plug gctx
            (rotateLeft (Tree.node RED gs gl gk (Tree.node BLACK ps pl pk z))))
    else setColor BLACK (Ctx.plug (Ctx.right pctx pc ps pl pk) z)

/-- Descent of insert (lines 307-331).  The context reached is the chain
of real nodes visited, i.e. the parent candidate y and its ancestors.
equal(key, x->key) is checked first in the source; neither key < k nor
k < key holds exactly in the final else branch.  On an equal key the
existing position is returned with inserted = false and the tree is
rebuilt unchanged.  At the sentinel a RED node with size 1 and sentinel
children is attached, updateSize(z->parent, m_nil, 1) bumps every
ancestor's size field, and fixUpInsert runs. -/
def insertGo [LinearOrder α] (key : α) : Ctx α → Tree α → Tree α × Option α × Bool
  | ctx, Tree.nil =>
      (fixUpInsert (Ctx.incSizes ctx) (Tree.node RED 1 Tree.nil key Tree.nil),
       some key, true)
  | ctx, Tree.node c s l k r =>
      if key < k then insertGo key (Ctx.left ctx c s k r) l
      else if k < key then insertGo key (Ctx.right ctx c s l k) r
      else (Ctx.plug ctx (Tree.node c s l k r), some k, false)

/-- insert: the pair (iterator, inserted) of the source is modelled as
(new tree, key at the returned position, inserted flag). -/
def insert [LinearOrder α] (t : Tree α) (key : α) : Tree α × Option α × Bool :=
  insertGo key Ctx.root t

/-- The tree after inserting each element of a list in turn (used to
state concrete scenarios). -/
def insertList [LinearOrder α] (t : Tree α) : List α → Tree α
  | [] => t
  | x :: xs => insertList (insert t x).1 xs

/-- Descent of erase(const Key&) via search (lines 333-340, 486-497),
keeping the context of the node found. -/
def searchLoc [LinearOrder α] (key : α) : Ctx α → Tree α → Ctx α × Tree α
  | ctx, Tree.nil => (ctx, Tree.nil)
  | ctx, Tree.node c s l k r =>
    if key < k then searchLoc key (Ctx.left ctx c s k r) l
    else if k < key then searchLoc key (Ctx.right ctx c s l k) r
    else (ctx, Tree.node c s l k r)

/-- The two-child erase case when y = min(z->right) is not z's child
(lines 645-654): updateSize(y->parent, z, -1) subtracts 1 from the size
field of every node on the left spine of z->right from its root down to
y's parent, and transplant(y, y->right) puts y->right at y's old
position.  This walk performs both, returning the context of y's old
position (inside the final tree) and y->right, which is the node the
erase fixup starts from. -/
def spliceSpine : Ctx α → Tree α → Ctx α × Tree α
  | fctx, Tree.nil => (fctx, Tree.nil)
  | fctx, Tree.node c s l k r =>
    if isNil l then (fctx, r)
    else spliceSpine (Ctx.left fctx c (s - 1) k r) l

/-- Cases 3 and 4 of fixUpErase for x a left child (lines 684-696),
reached when the sibling w1 is BLACK with a RED child; pc1/ps1/pk1 are
the current parent's fields.  Case 3 (w's right child BLACK): blacken
w->left, redden w, rotateRight(w).  Case 4: give w the parent's color,
blacken the parent and w->right, rotateLeft(parent), set x = m_root; the
loop then stops and blackens the root. -/
def eraseCase4L (pctx1 : Ctx α) (pc1 : Bool) (ps1 : Nat) (x : Tree α) (pk1 : α)
    (w1 : Tree α) : Tree α :=
  let w2 := if rootColor (rightT w1) = BLACK then
      match w1 with
      | Tree.node _ wsz wll wkk wrr =>
          rotateRight (Tree.node RED wsz (setColor BLACK wll) wkk wrr)
      | Tree.nil => Tree.nil
    else w1
  match w2 with
  | Tree.node _ wsz wll wkk wrr =>
      setColor BLACK (Ctx.plug pctx1 (rotateLeft
        (Tree.node BLACK ps1 x pk1 (Tree.node pc1 wsz wll wkk (setColor BLACK wrr)))))
  | Tree.nil => setColor BLACK (Ctx.plug pctx1 (rotateLeft (Tree.node BLACK ps1 x pk1 Tree.nil)))

/-- Cases 3 and 4 of fixUpErase for x a right child (lines 708-720),
mirrored. -/
def eraseCase4R (pctx1 : Ctx α) (pc1 : Bool) (ps1 : Nat) (w1 : Tree α) (pk1 : α)
    (x : Tree α) : Tree α :=
  let w2 := if rootColor (leftT w1) = BLACK then
      match w1 with
      | Tree.node _ wsz wll wkk wrr =>
          rotateLeft (Tree.node RED wsz wll wkk (setColor BLACK wrr))
      | Tree.nil => Tree.nil
    else w1
  match w2 with
  | Tree.node _ wsz wll wkk wrr =>
      setColor BLACK (Ctx.plug pctx1 (rotateRight
        (Tree.node BLACK ps1 (Tree.node pc1 wsz (setColor BLACK wll) wkk wrr) pk1 x)))
  | Tree.nil => setColor BLACK (Ctx.plug pctx1 (rotateRight (Tree.node BLACK ps1 Tree.nil pk1 x)))

/-- fixUpErase (lines 669-724) as a recursion on the position of x.  The
loop runs while x is not the root (context not .root) and x is BLACK
(the sentinel counts as BLACK); on exit x->color = BLACK is applied.
Inside, w is the sibling of x.  If w is RED (case 1), w is blackened,
the parent reddened and rotated, which in context form pushes one frame:
for x a left child the parent subtree node(RED, ps, x, pk, w) is rotated
left, placing x under node(RED, ps - w.r.size - 1, _, pk, w.l) under
node(BLACK, w.size + x.size + 1, _, w.k, w.r); the new sibling is w's
near child.  Then, in the same iteration: if both of the (new) sibling's
children are BLACK (case 2), the sibling is reddened and the loop
continues from the parent; otherwise cases 3/4 finish (eraseCase4L/R).
A RED w directly states case 2 cannot loop forever: after case 1 the
parent is RED, so the following case 2 exits at once. -/
def fixUpErase : Ctx α → Tree α → Tree α
  | Ctx.root, x => setColor BLACK x
  | Ctx.left pctx pc ps pk pr, x =>
    if _h : rootColor x = RED then
      Ctx.plug (Ctx.left pctx pc ps pk pr) (setColor BLACK x)
    else if _hw : rootColor pr = RED then
      match pr with
      | Tree.node _ ws wl wk wr =>
        if rootColor (leftT wl) = BLACK ∧ rootColor (rightT wl) = BLACK then
          fixUpErase (Ctx.left pctx BLACK (ws + sz x + 1) wk wr)
            (Tree.node RED (ps - sz wr - 1) x pk (setColor RED wl))
        else
          eraseCase4L (Ctx.left pctx BLACK (ws + sz x + 1) wk wr) RED
            (ps - sz wr - 1) x pk wl
      | Tree.nil => setColor BLACK (Ctx.plug (Ctx.left pctx pc ps pk pr) x)
    else
      if rootColor (leftT pr) = BLACK ∧ rootColor (rightT pr) = BLACK then
        fixUpErase pctx (Tree.node pc ps x pk (setColor RED pr))
      else eraseCase4L pctx pc ps x pk pr
  | Ctx.right pctx pc ps pl pk, x =>
    if _h : rootColor x = RED then
      Ctx.plug (Ctx.right pctx pc ps pl pk) (setColor BLACK x)
    else if _hw : rootColor pl = RED then
      match pl with
      | Tree.node _ ws wl wk wr =>
        if rootColor (rightT wr) = BLACK ∧ rootColor (leftT wr) = BLACK then
          fixUpErase (Ctx.right pctx BLACK (ws + sz x + 1) wl wk)
            (Tree.node RED (ps - sz wl - 1) (setColor RED wr) pk x)
        else
          eraseCase4R (Ctx.right pctx BLACK (ws + sz x + 1) wl wk) RED
            (ps - sz wl - 1) wr pk x
      | Tree.nil => setColor BLACK (Ctx.plug (Ctx.right pctx pc ps pl pk) x)
    else
      if rootColor (rightT pl) = BLACK ∧ rootColor (leftT pl) = BLACK then
        fixUpErase pctx (Tree.node pc ps (setColor RED pl) pk x)
      else eraseCase4R pctx pc ps pl pk x
termination_by ctx x => 2 * Ctx.depth ctx + (if rootColor x = BLACK then 1 else 0)
decreasing_by
  all_goals cases t <;> simp_all [Ctx.depth, Tree.rootColor, RED, BLACK] <;>
    (try split) <;> omega

/-- erase(Node* z) (lines 627-667), for z = node zc zs l zk r at context
ctx.  First updateSize(z->parent, m_nil, -1) decrements every ancestor's
size field; the returned iterator is the successor of z, computed before
the splice.  Then the three structural cases: a sentinel child means a
single transplant of the other child; otherwise y = min(z->right),
recording y's color; if y is z's child it is relinked directly with
y->size += y->left->size at the end (with y->left = l); otherwise the
left spine between z->right and y's parent loses 1 in each size field,
y->right replaces y, and y takes z's position, color zc and size
(y.size - y.right.size) + z.right.size' + l.size, with z.right.size' the
already-decremented field.  If the removed/displaced color was BLACK,
fixUpErase runs at the spliced position. -/
def eraseAt [LinearOrder α] (ctx : Ctx α) (zc : Bool) (zs : Nat) (l : Tree α) (zk : α)
    (r : Tree α) : Tree α × Option α :=
  let ctx1 := Ctx.decSizes ctx
  let succ := successorAt ctx1 (Tree.node zc zs l zk r)
  if isNil l then
    (if zc = BLACK then fixUpErase ctx1 r else Ctx.plug ctx1 r, succ)
  else if isNil r then
    (if zc = BLACK then fixUpErase ctx1 l else Ctx.plug ctx1 l, succ)
  else
    match r with
    | Tree.nil => (Ctx.plug ctx1 (Tree.node zc zs l zk r), succ)
    | Tree.node rc rs rl rk rr =>
      if isNil rl then
        (if rc = BLACK then fixUpErase (Ctx.right ctx1 zc (rs + sz l) l rk) rr
         else Ctx.plug (Ctx.right ctx1 zc (rs + sz l) l rk) rr, succ)
      else
        match minNode (Tree.node rc rs rl rk rr) with
        | Tree.node yc ys _ yk yr =>
          let p := spliceSpine (Ctx.right ctx1 zc (ys - sz yr + (rs - 1) + sz l) l yk)
                     (Tree.node rc rs rl rk rr)
          (if yc = BLACK then fixUpErase p.1 p.2 else Ctx.plug p.1 p.2, succ)
        | Tree.nil => (Ctx.plug ctx1 (Tree.node zc zs l zk r), succ)

/-- erase(const Key&) (lines 333-340): search for the key; when absent
the tree is untouched and the end iterator is returned; otherwise
erase(Node*) runs.  The pair is (new tree, key at returned position). -/
def eraseKey [LinearOrder α] (t : Tree α) (key : α) : Tree α × Option α :=
  match searchLoc key Ctx.root t with
  | (_, Tree.nil) => (t, none)
  | (ctx, Tree.node zc zs l zk r) => eraseAt ctx zc zs l zk r

/-- Work queue of deepCopy (lines 289-305): a breadth-first walk of the
source pushing real children only, inserting each visited key into the
destination. -/
def deepCopyGo [LinearOrder α] : List (Tree α) → Tree α → Tree α
  | [], dst => dst
  | Tree.nil :: q, dst => deepCopyGo q dst
  | Tree.node _ _ l k r :: q, dst =>
    deepCopyGo (q ++ (if isNil l then [] else [l]) ++ (if isNil r then [] else [r]))
      (insert dst k).1
termination_by q _ => 2 * (q.map realSize).sum + q.length
decreasing_by
  all_goals first
    | (simp [Tree.realSize] <;> omega)
    | (cases l <;> cases r <;> simp_all [Tree.isNil, Tree.realSize] <;> omega)

/-- deepCopy(src, dst) (lines 289-305): nothing happens on an empty
source, otherwise the queue starts with the source root.  dst is NOT
cleared first. -/
def deepCopy [LinearOrder α] (src dst : Tree α) : Tree α :=
  if isNil src then dst else deepCopyGo [src] dst

/-- Copy construction (lines 236-241): default-construct (empty tree),
then deepCopy from the source. -/
def copyCtor [LinearOrder α] (src : Tree α) : Tree α := deepCopy src Tree.nil

/-- Copy assignment (lines 252-259), for dst != &src: deepCopy from the
source into the current tree, without clearing it first. -/
def copyAssign [LinearOrder α] (dst src : Tree α) : Tree α := deepCopy src dst

/-- Stopwatch::median (Stopwatch.hpp lines 168-177) on the recorded set
of durations (modelled by their non-negative integer counts, with the
default Duration so that duration_cast is the identity): 0 when the set
is empty, otherwise with sz = m_set.size(), idx1 = sz >> 1 and
idx2 = idx1 - (!(sz & 1) && (sz & ~1)), i.e. idx1 minus one exactly when
sz is even and at least 2, the result is
(*findByOrder(idx1) + *findByOrder(idx2)) >> 1.  Both indices are in
range, so the dereferences read the keys at those positions. -/
def stopwatchMedian (t : Tree Nat) : Nat :=
  if sz t = 0 then 0
  else
    ((findByOrderKey t (sz t / 2)).getD 0 +
     (findByOrderKey t (sz t / 2 - (if sz t % 2 = 0 ∧ 2 ≤ sz t then 1 else 0))).getD 0) / 2

/-- Tree states reachable by the public operations, starting from the
default-constructed empty tree.  clear() and the moved-from state give
the empty tree again; a moved-to tree and the two copy operations are
insert sequences over reachable trees (deepCopy performs inserts only),
so the three constructors below generate every reachable state. -/
inductive Reachable [LinearOrder α] : Tree α → Prop where
  | empty : Reachable Tree.nil
  | ins (t : Tree α) (key : α) : Reachable t → Reachable (insert t key).1
  | del (t : Tree α) (key : α) : Reachable t → Reachable (eraseKey t key).1

/-- Size-consistency of a context: every frame's stored size field is
correct under the assumption that the subtree filling the hole has n
real nodes. -/
def CtxSz : Ctx α → Nat → Prop
  | Ctx.root, _ => True
  | Ctx.left p _ s _ r, n => s = 1 + n + realSize r ∧ SizeOk r ∧ CtxSz p (1 + n + realSize r)
  | Ctx.right p _ s l _, n => s = 1 + realSize l + n ∧ SizeOk l ∧ CtxSz p (1 + realSize l + n)

/-- Specification-level description of the net structural effect of the
two-child erase splice on z's right subtree: the minimum node is removed
(replaced by its right child) and every node on the left spine loses one
in its size field.  spliceSpine is proved to realize exactly this. -/
def delMin : Tree α → Tree α
  | Tree.nil => Tree.nil
  | Tree.node c s l k r => if isNil l then r else Tree.node c (s - 1) (delMin l) k r

/-- Color of the innermost frame of a context, i.e. of the parent node of
the position; the sentinel parent of the root is BLACK. -/
def Ctx.color : Ctx α → Bool
  | Ctx.root => BLACK
  | Ctx.left _ c _ _ _ => c
  | Ctx.right _ c _ _ _ => c

/-- Color of the root of the whole tree rebuilt from a context, as a
function of the color the hole's own root would contribute when the
context is empty. -/
def Ctx.outColor : Ctx α → Bool → Bool
  | Ctx.root, c => c
  | Ctx.left p c _ _ _, _ => Ctx.outColor p c
  | Ctx.right p c _ _ _, _ => Ctx.outColor p c

/-- The rebuilt tree's root is BLACK whatever fills the hole (for the
empty context, where the hole is the root, this is trivially true and
the hole's color decides instead). -/
def Ctx.OutB : Ctx α → Prop
  | Ctx.root => True
  | Ctx.left p c _ _ _ => Ctx.outColor p c = BLACK
  | Ctx.right p c _ _ _ => Ctx.outColor p c = BLACK

/-- Red-black validity of the surroundings of a hole that expects a
subtree of black-height h: every frame's sibling subtree is valid with
the matching black-height, no RED frame sits directly below another RED
frame, and a RED frame's sibling has a BLACK root.  This is what holds
of the ancestors of any node of a valid tree. -/
inductive CtxRB : Ctx α → Nat → Prop where
  | root {h : Nat} : CtxRB Ctx.root h
  | leftB {p : Ctx α} {s h : Nat} {k : α} {r : Tree α} :
      CtxRB p (h + 1) → IsRB r h → CtxRB (Ctx.left p BLACK s k r) h
  | leftR {p : Ctx α} {s h : Nat} {k : α} {r : Tree α} :
      CtxRB p h → Ctx.color p = BLACK → IsRB r h → rootColor r = BLACK →
      CtxRB (Ctx.left p RED s k r) h
  | rightB {p : Ctx α} {s h : Nat} {k : α} {l : Tree α} :
      CtxRB p (h + 1) → IsRB l h → CtxRB (Ctx.right p BLACK s l k) h
  | rightR {p : Ctx α} {s h : Nat} {k : α} {l : Tree α} :
      CtxRB p h → Ctx.color p = BLACK → IsRB l h → rootColor l = BLACK →
      CtxRB (Ctx.right p RED s l k) h

/-- Near-validity at the erase fixup's position: either a valid subtree
of black-height h, or a RED-rooted node whose two subtrees are valid of
black-height h with no constraint on their root colors (the shape the
position has right after case 2 reddens the sibling under a RED parent).
Blackening a RED root of either kind gives a valid subtree of
black-height h + 1, absorbing the missing black of the deleted node. -/
def IRB (x : Tree α) (h : Nat) : Prop :=
  IsRB x h ∨ ∃ s l k r, x = Tree.node RED s l k r ∧ IsRB l h ∧ IsRB r h

/-! ### Concrete scenario trees (spec scenarios A-D) -/

/-- Scenario A/B: the tree after inserting 5, 3, 8, 1, 4 into an empty tree. -/
def scenarioTree : Tree Nat := insertList Tree.nil [5, 3, 8, 1, 4]

/-- Scenario C: recorded durations 50, 10, 30 (odd count). -/
def medianTreeOdd : Tree Nat := insertList Tree.nil [50, 10, 30]

/-- Scenario D: recorded durations 50, 10, 30, 20 (even count). -/
def medianTreeEven : Tree Nat := insertList Tree.nil [50, 10, 30, 20]

/-! ### Basic structural lemmas -/

theorem isNil_iff {t : Tree α} : isNil t = true ↔ t = Tree.nil := by
  cases t <;> simp [Tree.isNil]

theorem flatten_eq_nil_iff {t : Tree α} : flatten t = [] ↔ t = Tree.nil := by
  cases t <;> simp [Tree.flatten]

theorem realSize_eq_length (t : Tree α) : realSize t = (flatten t).length := by
  induction t <;> simp [Tree.flatten, Tree.realSize, *] <;> omega

theorem sz_eq_realSize {t : Tree α} (h : SizeOk t) : sz t = realSize t := by
  cases t with
  | nil => rfl
  | node c s l k r => simpa [Tree.sz, Tree.realSize] using h.1

theorem setColor_flatten (c : Bool) (t : Tree α) : flatten (setColor c t) = flatten t := by
  cases t <;> rfl

theorem setColor_realSize (c : Bool) (t : Tree α) : realSize (setColor c t) = realSize t := by
  cases t <;> rfl

theorem setColor_sizeOk {c : Bool} {t : Tree α} (h : SizeOk t) : SizeOk (setColor c t) := by
  cases t <;> simpa [setColor, Tree.SizeOk] using h

theorem rotateLeft_flatten (t : Tree α) : flatten (rotateLeft t) = flatten t := by
  cases t with
  | nil => rfl
  | node xc xs a xk yr =>
    cases yr with
    | nil => rfl
    | node yc ys b yk c => simp [rotateLeft, Tree.flatten]

theorem rotateRight_flatten (t : Tree α) : flatten (rotateRight t) = flatten t := by
  cases t with
  | nil => rfl
  | node xc xs yl xk a =>
    cases yl with
    | nil => rfl
    | node yc ys b yk c => simp [rotateRight, Tree.flatten]

theorem rotateLeft_realSize (t : Tree α) : realSize (rotateLeft t) = realSize t := by
  rw [realSize_eq_length, rotateLeft_flatten, ← realSize_eq_length]

theorem rotateRight_realSize (t : Tree α) : realSize (rotateRight t) = realSize t := by
  rw [realSize_eq_length, rotateRight_flatten, ← realSize_eq_length]

theorem rotateLeft_sizeOk {t : Tree α} (h : SizeOk t) : SizeOk (rotateLeft t) := by
  cases t with
  | nil => exact h
  | node xc xs a xk yr =>
    cases yr with
    | nil => exact h
    | node yc ys b yk c =>
      obtain ⟨hx, ha, hy⟩ := h
      obtain ⟨hys, hb, hc⟩ := hy
      refine ⟨?_, ⟨?_, ha, hb⟩, hc⟩ <;>
        simp [Tree.realSize, sz_eq_realSize ha, sz_eq_realSize hc] at * <;> omega

theorem rotateRight_sizeOk {t : Tree α} (h : SizeOk t) : SizeOk (rotateRight t) := by
  cases t with
  | nil => exact h
  | node xc xs yl xk a =>
    cases yl with
    | nil => exact h
    | node yc ys b yk c =>
      obtain ⟨hx, hy, ha⟩ := h
      obtain ⟨hys, hb, hc⟩ := hy
      refine ⟨?_, hb, ?_, hc, ha⟩ <;>
        simp [Tree.realSize, sz_eq_realSize ha, sz_eq_realSize hb] at * <;> omega

theorem plug_flatten (ctx : Ctx α) (t : Tree α) :
    flatten (Ctx.plug ctx t) = Ctx.ctxL ctx ++ flatten t ++ Ctx.ctxR ctx := by
  induction ctx generalizing t with
  | root => simp [Ctx.plug, Ctx.ctxL, Ctx.ctxR]
  | left p c s k r ih => simp [Ctx.plug, Ctx.ctxL, Ctx.ctxR, ih, Tree.flatten]
  | right p c s l k ih => simp [Ctx.plug, Ctx.ctxL, Ctx.ctxR, ih, Tree.flatten]

theorem plug_sizeOk {ctx : Ctx α} {t : Tree α} (ht : SizeOk t)
    (hc : CtxSz ctx (realSize t)) : SizeOk (Ctx.plug ctx t) := by
  induction ctx generalizing t with
  | root => exact ht
  | left p c s k r ih =>
    obtain ⟨hs, hr, hp⟩ := hc
    exact ih (t := Tree.node c s t k r) ⟨by simpa using hs, ht, hr⟩
      (by simpa [Tree.realSize, hs] using hp)
  | right p c s l k ih =>
    obtain ⟨hs, hl, hp⟩ := hc
    exact ih (t := Tree.node c s l k t) ⟨by simpa using hs, hl, ht⟩
      (by simpa [Tree.realSize, hs] using hp)

theorem incSizes_ctxL (ctx : Ctx α) : Ctx.ctxL (Ctx.incSizes ctx) = Ctx.ctxL ctx := by
  induction ctx <;> simp [Ctx.incSizes, Ctx.ctxL, *]

theorem incSizes_ctxR (ctx : Ctx α) : Ctx.ctxR (Ctx.incSizes ctx) = Ctx.ctxR ctx := by
  induction ctx <;> simp [Ctx.incSizes, Ctx.ctxR, *]

theorem decSizes_ctxL (ctx : Ctx α) : Ctx.ctxL (Ctx.decSizes ctx) = Ctx.ctxL ctx := by
  induction ctx <;> simp [Ctx.decSizes, Ctx.ctxL, *]

theorem decSizes_ctxR (ctx : Ctx α) : Ctx.ctxR (Ctx.decSizes ctx) = Ctx.ctxR ctx := by
  induction ctx <;> simp [Ctx.decSizes, Ctx.ctxR, *]

theorem incSizes_ctxSz {ctx : Ctx α} {n : Nat} (h : CtxSz ctx n) :
    CtxSz (Ctx.incSizes ctx) (n + 1) := by
  induction ctx generalizing n with
  | root => trivial
  | left p c s k r ih =>
    obtain ⟨hs, hr, hp⟩ := h
    refine ⟨by omega, hr, ?_⟩
    have e : 1 + (n + 1) + realSize r = (1 + n + realSize r) + 1 := by omega
    rw [e]; exact ih hp
  | right p c s l k ih =>
    obtain ⟨hs, hl, hp⟩ := h
    refine ⟨by omega, hl, ?_⟩
    have e : 1 + realSize l + (n + 1) = (1 + realSize l + n) + 1 := by omega
    rw [e]; exact ih hp

theorem decSizes_ctxSz {ctx : Ctx α} {n : Nat} (h : CtxSz ctx (n + 1)) :
    CtxSz (Ctx.decSizes ctx) n := by
  induction ctx generalizing n with
  | root => trivial
  | left p c s k r ih =>
    obtain ⟨hs, hr, hp⟩ := h
    refine ⟨by omega, hr, ?_⟩
    have e : 1 + (n + 1) + realSize r = (1 + n + realSize r) + 1 := by omega
    rw [e] at hp
    exact ih hp
  | right p c s l k ih =>
    obtain ⟨hs, hl, hp⟩ := h
    refine ⟨by omega, hl, ?_⟩
    have e : 1 + realSize l + (n + 1) = (1 + realSize l + n) + 1 := by omega
    rw [e] at hp
    exact ih hp

theorem sorted_iff_pairwise {r : α → α → Prop} {l : List α} :
    l.Sorted r ↔ l.Pairwise r := Iff.rfl

theorem ordered_iff_sorted [LinearOrder α] {t : Tree α} :
    Ordered t ↔ (flatten t).Sorted (· < ·) := by
  induction t with
  | nil => simp [Tree.Ordered, Tree.flatten, sorted_iff_pairwise]
  | node c s l k r ihl ihr =>
    rw [Tree.Ordered, Tree.flatten, sorted_iff_pairwise, List.pairwise_append]
    simp only [← sorted_iff_pairwise, List.sorted_cons, List.mem_cons, ← ihl, ← ihr]
    constructor
    · rintro ⟨hl, hr, ol, or_⟩
      refine ⟨ol, ⟨hr, or_⟩, ?_⟩
      rintro a ha b (rfl | hb)
      · exact hl a ha
      · exact lt_trans (hl a ha) (hr b hb)
    · rintro ⟨ol, ⟨hr, or_⟩, hb⟩
      exact ⟨fun a ha => hb a ha k (Or.inl rfl), hr, ol, or_⟩

theorem mem_split_of_ordered [LinearOrder α] {t : Tree α} {k : α} (ho : Ordered t)
    (hm : k ∈ flatten t) :
    ∃ l₁ l₂, flatten t = l₁ ++ k :: l₂ ∧ (∀ x ∈ l₁, x < k) ∧ (∀ x ∈ l₂, k < x) := by
  induction t with
  | nil => simp [Tree.flatten] at hm
  | node c s l k' r ihl ihr =>
    obtain ⟨hl, hr, ol, or_⟩ := ho
    have hm' : k ∈ flatten l ∨ k = k' ∨ k ∈ flatten r := by simpa [Tree.flatten] using hm
    rcases hm' with h | rfl | h
    · obtain ⟨l₁, l₂, he, h₁, h₂⟩ := ihl ol h
      refine ⟨l₁, l₂ ++ k' :: flatten r, by simp [Tree.flatten, he], h₁, ?_⟩
      intro x hx
      have hk : k < k' := hl k h
      rcases List.mem_append.1 hx with hx | hx
      · exact h₂ x hx
      · rcases List.mem_cons.1 hx with rfl | hx
        · exact hk
        · exact lt_trans hk (hr x hx)
    · exact ⟨flatten l, flatten r, by simp [Tree.flatten], hl, hr⟩
    · obtain ⟨l₁, l₂, he, h₁, h₂⟩ := ihr or_ h
      refine ⟨flatten l ++ k' :: l₁, l₂, by simp [Tree.flatten, he], ?_, h₂⟩
      intro x hx
      have hk : k' < k := hr k h
      rcases List.mem_append.1 hx with hx | hx
      · exact lt_trans (hl x hx) hk
      · rcases List.mem_cons.1 hx with rfl | hx
        · exact hk
        · exact h₁ x hx

theorem minNode_rootKey {t : Tree α} (h : t ≠ Tree.nil) :
    rootKey (minNode t) = (flatten t).head? := by
  induction t with
  | nil => exact absurd rfl h
  | node c s l k r ih =>
    by_cases hl : l = Tree.nil
    · subst hl
      simp [minNode, Tree.isNil, Tree.rootKey, Tree.flatten]
    · have hnl : isNil l = false := by
        cases l
        · exact absurd rfl hl
        · rfl
      rw [minNode, hnl]
      simp only [Bool.false_eq_true, if_false, ih hl, Tree.flatten]
      rw [List.head?_append_of_ne_nil _ (by simpa [Ne, flatten_eq_nil_iff] using hl)]

theorem minNode_struct {t : Tree α} (hs : SizeOk t) (h : t ≠ Tree.nil) :
    ∃ yc ys yk yr, minNode t = Tree.node yc ys Tree.nil yk yr ∧
      ys = 1 + realSize yr ∧ SizeOk yr := by
  induction t with
  | nil => exact absurd rfl h
  | node c s l k r ih =>
    by_cases hl : l = Tree.nil
    · subst hl
      refine ⟨c, s, k, r, by simp [minNode, Tree.isNil], ?_, hs.2.2⟩
      simpa [Tree.realSize] using hs.1
    · have hnl : isNil l = false := by
        cases l
        · exact absurd rfl hl
        · rfl
      rw [minNode, hnl]
      simpa using ih hs.2.1 hl

theorem delMin_flatten (t : Tree α) : flatten (delMin t) = (flatten t).tail := by
  induction t with
  | nil => rfl
  | node c s l k r ih =>
    by_cases hl : l = Tree.nil
    · subst hl
      simp [delMin, Tree.isNil, Tree.flatten]
    · have hnl : isNil l = false := by
        cases l
        · exact absurd rfl hl
        · rfl
      rw [delMin, hnl]
      simp only [Bool.false_eq_true, if_false, Tree.flatten, ih]
      obtain ⟨a, as, ha⟩ : ∃ a as, flatten l = a :: as := by
        cases hfl : flatten l
        · exact absurd (flatten_eq_nil_iff.1 hfl) hl
        · exact ⟨_, _, rfl⟩
      simp [ha]

theorem delMin_realSize {t : Tree α} (h : t ≠ Tree.nil) :
    realSize (delMin t) = realSize t - 1 := by
  have h1 := delMin_flatten t
  have h2 := realSize_eq_length (delMin t)
  have h3 := realSize_eq_length t
  have h4 : flatten t ≠ [] := by simpa [Ne, flatten_eq_nil_iff] using h
  rw [h2, h1, List.length_tail, ← h3]

theorem delMin_sizeOk {t : Tree α} (hs : SizeOk t) : SizeOk (delMin t) := by
  induction t with
  | nil => trivial
  | node c s l k r ih =>
    by_cases hl : l = Tree.nil
    · subst hl
      simpa [delMin, Tree.isNil] using hs.2.2
    · have hnl : isNil l = false := by
        cases l
        · exact absurd rfl hl
        · rfl
      rw [delMin, hnl]
      simp only [Bool.false_eq_true, if_false, Tree.SizeOk]
      refine ⟨?_, ih hs.2.1, hs.2.2⟩
      have h0 := hs.1
      rw [delMin_realSize hl]
      have : 1 ≤ realSize l := by
        cases l
        · exact absurd rfl hl
        · simp [Tree.realSize]; omega
      omega

theorem spliceSpine_plug (fctx : Ctx α) (t : Tree α) :
    Ctx.plug (spliceSpine fctx t).1 (spliceSpine fctx t).2 = Ctx.plug fctx (delMin t) := by
  induction t generalizing fctx with
  | nil => rfl
  | node c s l k r ih =>
    by_cases hl : l = Tree.nil
    · subst hl
      simp [spliceSpine, delMin, Tree.isNil]
    · have hnl : isNil l = false := by
        cases l
        · exact absurd rfl hl
        · rfl
      rw [spliceSpine, delMin, hnl]
      simp only [Bool.false_eq_true, if_false]
      rw [ih]
      rfl

theorem spliceSpine_ctxSz {t : Tree α} (hs : SizeOk t) :
    ∀ {fctx : Ctx α}, CtxSz fctx (realSize t - 1) →
      CtxSz (spliceSpine fctx t).1 (realSize (spliceSpine fctx t).2) ∧
        SizeOk (spliceSpine fctx t).2 := by
  induction t with
  | nil => intro fctx h; exact ⟨by simpa [spliceSpine, Tree.realSize] using h, trivial⟩
  | node c s l k r ih =>
    intro fctx h
    by_cases hl : l = Tree.nil
    · subst hl
      refine ⟨?_, hs.2.2⟩
      simpa [spliceSpine, Tree.isNil, Tree.realSize] using h
    · have hnl : isNil l = false := by
        cases l
        · exact absurd rfl hl
        · rfl
      have h1 : 1 ≤ realSize l := by
        cases l
        · exact absurd rfl hl
        · simp [Tree.realSize]; omega
      rw [spliceSpine, hnl]
      simp only [Bool.false_eq_true, if_false]
      refine ih hs.2.1 ?_
      refine ⟨?_, hs.2.2, ?_⟩
      · have h2 := hs.1
        omega
      · have e : 1 + (realSize l - 1) + realSize r = realSize (Tree.node c s l k r) - 1 := by
          simp [Tree.realSize]
          omega
        rw [e]
        exact h

theorem sizeOk_node_iff {c : Bool} {s : Nat} {l r : Tree α} {k : α} :
    SizeOk (Tree.node c s l k r) ↔
      s = 1 + realSize l + realSize r ∧ SizeOk l ∧ SizeOk r := Iff.rfl

theorem ctxSz_left_iff {p : Ctx α} {c : Bool} {s n : Nat} {k : α} {r : Tree α} :
    CtxSz (Ctx.left p c s k r) n ↔
      s = 1 + n + realSize r ∧ SizeOk r ∧ CtxSz p (1 + n + realSize r) := Iff.rfl

theorem ctxSz_right_iff {p : Ctx α} {c : Bool} {s n : Nat} {l : Tree α} {k : α} :
    CtxSz (Ctx.right p c s l k) n ↔
      s = 1 + realSize l + n ∧ SizeOk l ∧ CtxSz p (1 + realSize l + n) := Iff.rfl

theorem realSize_node {c : Bool} {s : Nat} {l r : Tree α} {k : α} :
    realSize (Tree.node c s l k r) = 1 + realSize l + realSize r := rfl

theorem fixUpInsert_flatten (ctx : Ctx α) (z : Tree α) :
    flatten (fixUpInsert ctx z) = Ctx.ctxL ctx ++ flatten z ++ Ctx.ctxR ctx := by
  induction ctx, z using fixUpInsert.induct <;>
    rw [fixUpInsert.eq_def] <;>
    simp_all [setColor_flatten, rotateLeft_flatten, rotateRight_flatten,
      plug_flatten, Ctx.ctxL, Ctx.ctxR, Tree.flatten]

theorem fixUpInsert_sizeOk (ctx : Ctx α) (z : Tree α) :
    SizeOk z → CtxSz ctx (realSize z) → SizeOk (fixUpInsert ctx z) := by
  induction ctx, z using fixUpInsert.induct with
  | case1 z =>
    intro hz _
    rw [fixUpInsert.eq_def]
    exact setColor_sizeOk hz
  | case2 ps pk pr z =>
    -- pctx = root and the parent is RED (unreachable in valid trees): exit
    intro hz hc
    rw [fixUpInsert.eq_def]
    simp only [RED, reduceIte]
    exact setColor_sizeOk (plug_sizeOk hz hc)
  | case3 ps pk pr z gctx gc gs gk gu hgu ih =>
    -- z left child, parent left child, uncle RED: recolor and recurse
    intro hz hc
    rw [fixUpInsert.eq_def]
    simp only [RED, reduceIte, hgu]
    obtain ⟨hps, hpr, hpctx⟩ := hc
    obtain ⟨hgs, hgu2, hgctx⟩ := hpctx
    refine ih ⟨?_, ⟨hps, hz, hpr⟩, setColor_sizeOk hgu2⟩ ?_
    · simp [realSize_node, setColor_realSize]
      omega
    · simp only [realSize_node, setColor_realSize]
      convert hgctx using 2 <;> omega
  | case4 ps pk pr z gctx gc gs gk gu hgu =>
    -- z left child, parent left child, uncle BLACK: rotateRight grandparent
    intro hz hc
    rw [fixUpInsert.eq_def]
    simp only [RED] at hgu
    simp only [RED, reduceIte, if_neg hgu]
    obtain ⟨hps, hpr, hpctx⟩ := hc
    obtain ⟨hgs, hgu2, hgctx⟩ := hpctx
    have hG : SizeOk (Tree.node RED gs (Tree.node BLACK ps z pk pr) gk gu) :=
      ⟨by simp only [realSize_node]; omega, ⟨hps, hz, hpr⟩, hgu2⟩
    refine setColor_sizeOk (plug_sizeOk (rotateRight_sizeOk hG) ?_)
    rw [rotateRight_realSize]
    simp only [realSize_node]
    convert hgctx using 2 <;> omega
  | case5 ps pk pr z gctx gc gs gl gk hgl ih =>
    -- z left child, parent right child of grandparent, uncle RED
    intro hz hc
    rw [fixUpInsert.eq_def]
    simp only [RED, reduceIte, hgl]
    obtain ⟨hps, hpr, hpctx⟩ := hc
    obtain ⟨hgs, hgl2, hgctx⟩ := hpctx
    refine ih ⟨?_, setColor_sizeOk hgl2, ⟨hps, hz, hpr⟩⟩ ?_
    · simp [realSize_node, setColor_realSize]
      omega
    · simp only [realSize_node, setColor_realSize]
      convert hgctx using 2 <;> omega
  | case6 ps pk pr z gctx gc gs gl gk hgl =>
    -- z left child, parent right child, uncle BLACK: double rotation
    intro hz hc
    rw [fixUpInsert.eq_def]
    simp only [RED] at hgl
    simp only [RED, reduceIte, if_neg hgl]
    obtain ⟨hps, hpr, hpctx⟩ := hc
    obtain ⟨hgs, hgl2, hgctx⟩ := hpctx
    have hP : SizeOk (Tree.node RED ps z pk pr) := ⟨hps, hz, hpr⟩
    have hG : SizeOk (Tree.node RED gs gl gk
        (setColor BLACK (rotateRight (Tree.node RED ps z pk pr)))) := by
      refine ⟨?_, hgl2, setColor_sizeOk (rotateRight_sizeOk hP)⟩
      simp only [realSize_node, setColor_realSize, rotateRight_realSize]
      omega
    refine setColor_sizeOk (plug_sizeOk (rotateLeft_sizeOk hG) ?_)
    rw [rotateLeft_realSize]
    simp only [realSize_node, setColor_realSize, rotateRight_realSize]
    convert hgctx using 2 <;> omega
  | case7 pctx pc ps pk pr z hred =>
    -- z left child, parent BLACK: exit
    intro hz hc
    rw [fixUpInsert.eq_def]
    simp only [if_neg hred]
    exact setColor_sizeOk (plug_sizeOk hz hc)
  | case8 ps pl pk z =>
    intro hz hc
    rw [fixUpInsert.eq_def]
    simp only [RED, reduceIte]
    exact setColor_sizeOk (plug_sizeOk hz hc)
  | case9 ps pl pk z gctx gc gs gk gu hgu ih =>
    -- z right child, parent left child, uncle RED
    intro hz hc
    rw [fixUpInsert.eq_def]
    simp only [RED, reduceIte, hgu]
    obtain ⟨hps, hpl, hpctx⟩ := hc
    obtain ⟨hgs, hgu2, hgctx⟩ := hpctx
    refine ih ⟨?_, ⟨hps, hpl, hz⟩, setColor_sizeOk hgu2⟩ ?_
    · simp [realSize_node, setColor_realSize]
      omega
    · simp only [realSize_node, setColor_realSize]
      convert hgctx using 2 <;> omega
  | case10 ps pl pk z gctx gc gs gk gu hgu =>
    -- z right child, parent left child, uncle BLACK: double rotation
    intro hz hc
    rw [fixUpInsert.eq_def]
    simp only [RED] at hgu
    simp only [RED, reduceIte, if_neg hgu]
    obtain ⟨hps, hpl, hpctx⟩ := hc
    obtain ⟨hgs, hgu2, hgctx⟩ := hpctx
    have hP : SizeOk (Tree.node RED ps pl pk z) := ⟨hps, hpl, hz⟩
    have hG : SizeOk (Tree.node RED gs
        (setColor BLACK (rotateLeft (Tree.node RED ps pl pk z))) gk gu) := by
      refine ⟨?_, setColor_sizeOk (rotateLeft_sizeOk hP), hgu2⟩
      simp only [realSize_node, setColor_realSize, rotateLeft_realSize]
      omega
    refine setColor_sizeOk (plug_sizeOk (rotateRight_sizeOk hG) ?_)
    rw [rotateRight_realSize]
    simp only [realSize_node, setColor_realSize, rotateLeft_realSize]
    convert hgctx using 2 <;> omega
  | case11 ps pl pk z gctx gc gs gl gk hgl ih =>
    -- z right child, parent right child, uncle RED
    intro hz hc
    rw [fixUpInsert.eq_def]
    simp only [RED, reduceIte, hgl]
    obtain ⟨hps, hpl, hpctx⟩ := hc
    obtain ⟨hgs, hgl2, hgctx⟩ := hpctx
    refine ih ⟨?_, setColor_sizeOk hgl2, ⟨hps, hpl, hz⟩⟩ ?_
    · simp [realSize_node, setColor_realSize]
      omega
    · simp only [realSize_node, setColor_realSize]
      convert hgctx using 2 <;> omega
  | case12 ps pl pk z gctx gc gs gl gk hgl =>
    -- z right child, parent right child, uncle BLACK: rotateLeft grandparent
    intro hz hc
    rw [fixUpInsert.eq_def]
    simp only [RED] at hgl
    simp only [RED, reduceIte, if_neg hgl]
    obtain ⟨hps, hpl, hpctx⟩ := hc
    obtain ⟨hgs, hgl2, hgctx⟩ := hpctx
    have hG : SizeOk (Tree.node RED gs gl gk (Tree.node BLACK ps pl pk z)) := by
      refine ⟨?_, hgl2, ⟨hps, hpl, hz⟩⟩
      simp only [realSize_node]
      omega
    refine setColor_sizeOk (plug_sizeOk (rotateLeft_sizeOk hG) ?_)
    rw [rotateLeft_realSize]
    simp only [realSize_node]
    convert hgctx using 2 <;> omega
  | case13 pctx pc ps pl pk z hred =>
    intro hz hc
    rw [fixUpInsert.eq_def]
    simp only [if_neg hred]
    exact setColor_sizeOk (plug_sizeOk hz hc)


/-! ### insert: descent characterization -/

theorem sorted_insert_middle [LinearOrder α] {l₁ l₂ : List α} {k : α}
    (hs : (l₁ ++ l₂).Sorted (· < ·)) (h₁ : ∀ x ∈ l₁, x < k) (h₂ : ∀ x ∈ l₂, k < x) :
    (l₁ ++ k :: l₂).Sorted (· < ·) := by
  rw [sorted_iff_pairwise, List.pairwise_append] at hs ⊢
  obtain ⟨p1, p2, hb⟩ := hs
  refine ⟨p1, ?_, ?_⟩
  · rw [List.pairwise_cons]
    exact ⟨h₂, p2⟩
  · intro a ha b hb'
    rcases List.mem_cons.1 hb' with rfl | hb2
    · exact h₁ a ha
    · exact hb a ha b hb2

theorem insertGo_found [LinearOrder α] {k : α} :
    ∀ (cur : Tree α) (ctx : Ctx α), Ordered cur → k ∈ flatten cur →
      insertGo k ctx cur = (Ctx.plug ctx cur, some k, false) := by
  intro cur
  induction cur with
  | nil => intro ctx _ hm; simp [Tree.flatten] at hm
  | node c s l k' r ihl ihr =>
    intro ctx ho hm
    obtain ⟨hl, hr, ol, or_⟩ := ho
    have hm' : k ∈ flatten l ∨ k = k' ∨ k ∈ flatten r := by
      simpa [Tree.flatten] using hm
    rcases hm' with h | rfl | h
    · have hk : k < k' := hl k h
      rw [insertGo, if_pos hk]
      exact ihl (Ctx.left ctx c s k' r) ol h
    · rw [insertGo, if_neg (lt_irrefl k), if_neg (lt_irrefl k)]
    · have hk : k' < k := hr k h
      rw [insertGo, if_neg (asymm hk), if_pos hk]
      exact ihr (Ctx.right ctx c s l k') or_ h

theorem insert_found [LinearOrder α] {t : Tree α} {k : α} (ho : Ordered t)
    (hm : k ∈ flatten t) : insert t k = (t, some k, false) :=
  insertGo_found t Ctx.root ho hm

theorem insertGo_new [LinearOrder α] {k : α} :
    ∀ (cur : Tree α) (ctx : Ctx α), Ordered cur → SizeOk cur →
      CtxSz ctx (realSize cur) → k ∉ flatten cur →
      ∃ l₁ l₂, flatten cur = l₁ ++ l₂ ∧ (∀ x ∈ l₁, x < k) ∧ (∀ x ∈ l₂, k < x) ∧
        flatten (insertGo k ctx cur).1 = Ctx.ctxL ctx ++ (l₁ ++ k :: l₂) ++ Ctx.ctxR ctx ∧
        SizeOk (insertGo k ctx cur).1 ∧
        (insertGo k ctx cur).2 = (some k, true) := by
  intro cur
  induction cur with
  | nil =>
    intro ctx _ _ hc _
    refine ⟨[], [], rfl, by simp, by simp, ?_, ?_, rfl⟩
    · rw [insertGo]
      simp only [fixUpInsert_flatten, incSizes_ctxL, incSizes_ctxR, Tree.flatten]
    · rw [insertGo]
      refine fixUpInsert_sizeOk _ _ ⟨rfl, trivial, trivial⟩ ?_
      exact incSizes_ctxSz (by simpa [Tree.realSize] using hc)
  | node c s l k' r ihl ihr =>
    intro ctx ho hs hc hm
    obtain ⟨hl, hr, ol, or_⟩ := ho
    obtain ⟨hsz, sl, sr⟩ := hs
    have hm' : ¬(k ∈ flatten l ∨ k = k' ∨ k ∈ flatten r) := by
      simpa [Tree.flatten] using hm
    push_neg at hm'
    obtain ⟨hml, hne, hmr⟩ := hm'
    rcases lt_trichotomy k k' with hk | hk | hk
    · obtain ⟨l₁, l₂, he, h₁, h₂, hf, hso, hp⟩ :=
        ihl (Ctx.left ctx c s k' r) ol sl ⟨hsz, sr, hc⟩ hml
      rw [insertGo, if_pos hk]
      refine ⟨l₁, l₂ ++ k' :: flatten r, by simp [Tree.flatten, he], h₁, ?_, ?_, hso, hp⟩
      · intro x hx
        rcases List.mem_append.1 hx with hx | hx
        · exact h₂ x hx
        · rcases List.mem_cons.1 hx with rfl | hx
          · exact hk
          · exact lt_trans hk (hr x hx)
      · rw [hf]
        simp [Ctx.ctxL, Ctx.ctxR, Tree.flatten]
    · exact absurd hk hne
    · obtain ⟨l₁, l₂, he, h₁, h₂, hf, hso, hp⟩ :=
        ihr (Ctx.right ctx c s l k') or_ sr ⟨hsz, sl, hc⟩ hmr
      rw [insertGo, if_neg (asymm hk), if_pos hk]
      refine ⟨flatten l ++ k' :: l₁, l₂, by simp [Tree.flatten, he], ?_, h₂, ?_, hso, hp⟩
      · intro x hx
        rcases List.mem_append.1 hx with hx | hx
        · exact lt_trans (hl x hx) hk
        · rcases List.mem_cons.1 hx with rfl | hx
          · exact hk
          · exact h₁ x hx
      · rw [hf]
        simp [Ctx.ctxL, Ctx.ctxR, Tree.flatten]

theorem insert_new [LinearOrder α] {t : Tree α} {k : α} (ho : Ordered t) (hs : SizeOk t)
    (hm : k ∉ flatten t) :
    ∃ l₁ l₂, flatten t = l₁ ++ l₂ ∧ (∀ x ∈ l₁, x < k) ∧ (∀ x ∈ l₂, k < x) ∧
      flatten (insert t k).1 = l₁ ++ k :: l₂ ∧ SizeOk (insert t k).1 ∧
      (insert t k).2 = (some k, true) := by
  obtain ⟨l₁, l₂, he, h₁, h₂, hf, hso, hp⟩ :=
    insertGo_new t Ctx.root ho hs trivial hm
  exact ⟨l₁, l₂, he, h₁, h₂, by simpa [Ctx.ctxL, Ctx.ctxR] using hf, hso, hp⟩

theorem insert_invariant [LinearOrder α] {t : Tree α} {k : α} (ho : Ordered t)
    (hs : SizeOk t) : Ordered (insert t k).1 ∧ SizeOk (insert t k).1 := by
  by_cases hm : k ∈ flatten t
  · rw [insert_found ho hm]
    exact ⟨ho, hs⟩
  · obtain ⟨l₁, l₂, he, h₁, h₂, hf, hso, _⟩ := insert_new ho hs hm
    refine ⟨?_, hso⟩
    rw [ordered_iff_sorted, hf]
    exact sorted_insert_middle (he ▸ ordered_iff_sorted.1 ho) h₁ h₂



/-! ### erase: flatten preservation through the fixup -/

theorem eraseCase4L_flatten (p1 : Ctx α) (pc1 : Bool) (ps1 : Nat) (x : Tree α) (pk1 : α)
    (w1 : Tree α) :
    flatten (eraseCase4L p1 pc1 ps1 x pk1 w1) =
      Ctx.ctxL p1 ++ flatten x ++ pk1 :: (flatten w1 ++ Ctx.ctxR p1) := by
  rw [eraseCase4L.eq_def]
  simp only []
  split
  next w2c w2s w2l w2k w2r heq =>
    have hflat : flatten w2l ++ w2k :: flatten w2r = flatten w1 := by
      have h0 := congrArg flatten heq
      split at h0
      · rcases w1 with _ | ⟨c1, s1, l1, k1, r1⟩
        · simp [Tree.flatten] at h0
        · rw [rotateRight_flatten] at h0
          simp only [Tree.flatten, setColor_flatten] at h0 ⊢
          exact h0.symm
      · rw [h0]
        simp [Tree.flatten]
    rw [setColor_flatten, plug_flatten, rotateLeft_flatten]
    simp only [Tree.flatten, setColor_flatten]
    rw [← hflat]
    simp
  next heq =>
    have hflat : flatten w1 = [] := by
      have h0 := congrArg flatten heq
      split at h0
      · rcases w1 with _ | ⟨c1, s1, l1, k1, r1⟩
        · rfl
        · rw [rotateRight_flatten] at h0
          simp [Tree.flatten, setColor_flatten] at h0
      · simpa using h0
    rw [setColor_flatten, plug_flatten]
    have hrot : rotateLeft (Tree.node BLACK ps1 x pk1 Tree.nil) =
        Tree.node BLACK ps1 x pk1 Tree.nil := rfl
    rw [hrot]
    simp [Tree.flatten, hflat]

theorem eraseCase4R_flatten (p1 : Ctx α) (pc1 : Bool) (ps1 : Nat) (w1 : Tree α) (pk1 : α)
    (x : Tree α) :
    flatten (eraseCase4R p1 pc1 ps1 w1 pk1 x) =
      Ctx.ctxL p1 ++ flatten w1 ++ pk1 :: (flatten x ++ Ctx.ctxR p1) := by
  rw [eraseCase4R.eq_def]
  simp only []
  split
  next w2c w2s w2l w2k w2r heq =>
    have hflat : flatten w2l ++ w2k :: flatten w2r = flatten w1 := by
      have h0 := congrArg flatten heq
      split at h0
      · rcases w1 with _ | ⟨c1, s1, l1, k1, r1⟩
        · simp [Tree.flatten] at h0
        · rw [rotateLeft_flatten] at h0
          simp only [Tree.flatten, setColor_flatten] at h0 ⊢
          exact h0.symm
      · rw [h0]
        simp [Tree.flatten]
    rw [setColor_flatten, plug_flatten, rotateRight_flatten]
    simp only [Tree.flatten, setColor_flatten]
    rw [← hflat]
    simp
  next heq =>
    have hflat : flatten w1 = [] := by
      have h0 := congrArg flatten heq
      split at h0
      · rcases w1 with _ | ⟨c1, s1, l1, k1, r1⟩
        · rfl
        · rw [rotateLeft_flatten] at h0
          simp [Tree.flatten, setColor_flatten] at h0
      · simpa using h0
    rw [setColor_flatten, plug_flatten]
    have hrot : rotateRight (Tree.node BLACK ps1 Tree.nil pk1 x) =
        Tree.node BLACK ps1 Tree.nil pk1 x := rfl
    rw [hrot]
    simp [Tree.flatten, hflat]

theorem fixUpErase_flatten (ctx : Ctx α) (x : Tree α) :
    flatten (fixUpErase ctx x) = Ctx.ctxL ctx ++ flatten x ++ Ctx.ctxR ctx := by
  induction ctx, x using fixUpErase.induct with
  | case1 x =>
    rw [fixUpErase.eq_def]
    simp [setColor_flatten, Ctx.ctxL, Ctx.ctxR]
  | case2 p c s k r x hred =>
    rw [fixUpErase.eq_def]
    simp [hred, setColor_flatten, plug_flatten, Ctx.ctxL, Ctx.ctxR, Tree.flatten]
  | case3 p c s k x hx color ws wl wk wr hw hbb hw2 ih =>
    rw [fixUpErase.eq_def]
    simp [hx, hw, hbb, ih, setColor_flatten, Ctx.ctxL, Ctx.ctxR, Tree.flatten]
  | case4 p c s k x hx color ws wl wk wr hw hnbb hw2 =>
    rw [fixUpErase.eq_def]
    simp [hx, hw, hnbb, eraseCase4L_flatten, Ctx.ctxL, Ctx.ctxR, Tree.flatten]
  | case5 p c s k x hx hnil1 hnil2 =>
    simp [Tree.rootColor, RED, BLACK] at hnil1
  | case6 p c s k r x hx hwn hbb ih =>
    rw [fixUpErase.eq_def]
    simp [hx, hwn, hbb, ih, setColor_flatten, Ctx.ctxL, Ctx.ctxR, Tree.flatten]
  | case7 p c s k r x hx hwn hnbb =>
    rw [fixUpErase.eq_def]
    simp [hx, hwn, hnbb, eraseCase4L_flatten, Ctx.ctxL, Ctx.ctxR, Tree.flatten]
  | case8 p c s l k x hred =>
    rw [fixUpErase.eq_def]
    simp [hred, setColor_flatten, plug_flatten, Ctx.ctxL, Ctx.ctxR, Tree.flatten]
  | case9 p c s k x hx color ws wl wk wr hw hbb hw2 ih =>
    rw [fixUpErase.eq_def]
    simp [hx, hw, hbb, ih, setColor_flatten, Ctx.ctxL, Ctx.ctxR, Tree.flatten]
  | case10 p c s k x hx color ws wl wk wr hw hnbb hw2 =>
    rw [fixUpErase.eq_def]
    simp [hx, hw, hnbb, eraseCase4R_flatten, Ctx.ctxL, Ctx.ctxR, Tree.flatten]
  | case11 p c s k x hx hnil1 hnil2 =>
    simp [Tree.rootColor, RED, BLACK] at hnil1
  | case12 p c s l k x hx hwn hbb ih =>
    rw [fixUpErase.eq_def]
    simp [hx, hwn, hbb, ih, setColor_flatten, Ctx.ctxL, Ctx.ctxR, Tree.flatten]
  | case13 p c s l k x hx hwn hnbb =>
    rw [fixUpErase.eq_def]
    simp [hx, hwn, hnbb, eraseCase4R_flatten, Ctx.ctxL, Ctx.ctxR, Tree.flatten]



/-! ### erase: size-invariant preservation through the fixup -/

theorem eraseCase4L_sizeOk {p1 : Ctx α} {pc1 : Bool} {ps1 : Nat} {x : Tree α} {pk1 : α}
    {w1 : Tree α} (hx : SizeOk x) (hw : SizeOk w1)
    (hps : ps1 = 1 + realSize x + realSize w1)
    (hc : CtxSz p1 (1 + realSize x + realSize w1)) :
    SizeOk (eraseCase4L p1 pc1 ps1 x pk1 w1) := by
  rw [eraseCase4L.eq_def]
  simp only []
  split
  next w2c w2s w2l w2k w2r heq =>
    have hw2 : SizeOk (Tree.node w2c w2s w2l w2k w2r) ∧
        realSize (Tree.node w2c w2s w2l w2k w2r) = realSize w1 := by
      rw [← heq]
      split
      · rcases w1 with _ | ⟨c1, s1, l1, k1, r1⟩
        · exact ⟨trivial, rfl⟩
        · obtain ⟨h1, h2, h3⟩ := hw
          refine ⟨rotateRight_sizeOk ⟨?_, setColor_sizeOk h2, h3⟩, ?_⟩
          · rw [setColor_realSize]
            exact h1
          · rw [rotateRight_realSize]
            simp [realSize_node, setColor_realSize]
      · exact ⟨hw, rfl⟩
    obtain ⟨hw2s, hw2r⟩ := hw2
    obtain ⟨hw2e, hw2l2, hw2r2⟩ := hw2s
    simp only [realSize_node] at hw2r
    have hinner : SizeOk (Tree.node pc1 w2s w2l w2k (setColor BLACK w2r)) :=
      ⟨by rw [setColor_realSize]; exact hw2e, hw2l2, setColor_sizeOk hw2r2⟩
    have houter : SizeOk (Tree.node BLACK ps1 x pk1
        (Tree.node pc1 w2s w2l w2k (setColor BLACK w2r))) := by
      refine ⟨?_, hx, hinner⟩
      rw [hps]
      simp only [realSize_node, setColor_realSize]
      omega
    refine setColor_sizeOk (plug_sizeOk (rotateLeft_sizeOk houter) ?_)
    rw [rotateLeft_realSize]
    simp only [realSize_node, setColor_realSize]
    have e : 1 + realSize x + (1 + realSize w2l + realSize w2r) =
        1 + realSize x + realSize w1 := by omega
    rw [e]
    exact hc
  next heq =>
    have hn : realSize w1 = 0 := by
      revert heq
      split
      · rcases w1 with _ | ⟨c1, s1, l1, k1, r1⟩
        · intro _
          rfl
        · intro heq
          rcases l1 with _ | ⟨c2, s2, l2, k2, r2⟩ <;>
            simp [rotateRight, setColor] at heq
      · intro heq
        rw [heq]
        rfl
    have hrot : rotateLeft (Tree.node BLACK ps1 x pk1 Tree.nil) =
        Tree.node BLACK ps1 x pk1 Tree.nil := rfl
    rw [hrot]
    refine setColor_sizeOk (plug_sizeOk ⟨?_, hx, trivial⟩ ?_)
    · rw [hps, hn]
      rfl
    · simp only [realSize_node]
      have e : 1 + realSize x + realSize (Tree.nil : Tree α) =
          1 + realSize x + realSize w1 := by
        simp [Tree.realSize, hn]
      rw [e]
      exact hc

theorem eraseCase4R_sizeOk {p1 : Ctx α} {pc1 : Bool} {ps1 : Nat} {w1 : Tree α} {pk1 : α}
    {x : Tree α} (hx : SizeOk x) (hw : SizeOk w1)
    (hps : ps1 = 1 + realSize w1 + realSize x)
    (hc : CtxSz p1 (1 + realSize w1 + realSize x)) :
    SizeOk (eraseCase4R p1 pc1 ps1 w1 pk1 x) := by
  rw [eraseCase4R.eq_def]
  simp only []
  split
  next w2c w2s w2l w2k w2r heq =>
    have hw2 : SizeOk (Tree.node w2c w2s w2l w2k w2r) ∧
        realSize (Tree.node w2c w2s w2l w2k w2r) = realSize w1 := by
      rw [← heq]
      split
      · rcases w1 with _ | ⟨c1, s1, l1, k1, r1⟩
        · exact ⟨trivial, rfl⟩
        · obtain ⟨h1, h2, h3⟩ := hw
          refine ⟨rotateLeft_sizeOk ⟨?_, h2, setColor_sizeOk h3⟩, ?_⟩
          · rw [setColor_realSize]
            exact h1
          · rw [rotateLeft_realSize]
            simp [realSize_node, setColor_realSize]
      · exact ⟨hw, rfl⟩
    obtain ⟨hw2s, hw2r⟩ := hw2
    obtain ⟨hw2e, hw2l2, hw2r2⟩ := hw2s
    simp only [realSize_node] at hw2r
    have hinner : SizeOk (Tree.node pc1 w2s (setColor BLACK w2l) w2k w2r) :=
      ⟨by rw [setColor_realSize]; exact hw2e, setColor_sizeOk hw2l2, hw2r2⟩
    have houter : SizeOk (Tree.node BLACK ps1
        (Tree.node pc1 w2s (setColor BLACK w2l) w2k w2r) pk1 x) := by
      refine ⟨?_, hinner, hx⟩
      rw [hps]
      simp only [realSize_node, setColor_realSize]
      omega
    refine setColor_sizeOk (plug_sizeOk (rotateRight_sizeOk houter) ?_)
    rw [rotateRight_realSize]
    simp only [realSize_node, setColor_realSize]
    have e : 1 + (1 + realSize w2l + realSize w2r) + realSize x =
        1 + realSize w1 + realSize x := by omega
    rw [e]
    exact hc
  next heq =>
    have hn : realSize w1 = 0 := by
      revert heq
      split
      · rcases w1 with _ | ⟨c1, s1, l1, k1, r1⟩
        · intro _
          rfl
        · intro heq
          rcases r1 with _ | ⟨c2, s2, l2, k2, r2⟩ <;>
            simp [rotateLeft, setColor] at heq
      · intro heq
        rw [heq]
        rfl
    have hrot : rotateRight (Tree.node BLACK ps1 Tree.nil pk1 x) =
        Tree.node BLACK ps1 Tree.nil pk1 x := rfl
    rw [hrot]
    refine setColor_sizeOk (plug_sizeOk ⟨?_, trivial, hx⟩ ?_)
    · rw [hps, hn]
      rfl
    · simp only [realSize_node]
      have e : 1 + realSize (Tree.nil : Tree α) + realSize x =
          1 + realSize w1 + realSize x := by
        simp [Tree.realSize, hn]
      rw [e]
      exact hc

theorem fixUpErase_sizeOk (ctx : Ctx α) (x : Tree α) :
    SizeOk x → CtxSz ctx (realSize x) → SizeOk (fixUpErase ctx x) := by
  induction ctx, x using fixUpErase.induct with
  | case1 x =>
    intro hx _
    rw [fixUpErase.eq_def]
    exact setColor_sizeOk hx
  | case2 p c s k r x hred =>
    intro hx hc
    rw [fixUpErase.eq_def]
    simp only [hred, reduceDIte]
    refine plug_sizeOk (setColor_sizeOk hx) ?_
    rw [setColor_realSize]
    exact hc
  | case3 p c s k x hx color ws wl wk wr hw hbb hw2 ih =>
    intro hxs hc
    rw [fixUpErase.eq_def]
    simp only [dif_neg hx, dif_pos hw, if_pos hbb]
    obtain ⟨hs, hws, hp⟩ := hc
    obtain ⟨hwe, hwl, hwr⟩ := hws
    have hs' : s = 1 + realSize x + (1 + realSize wl + realSize wr) := by
      simpa [realSize_node] using hs
    have hp' : CtxSz p (1 + realSize x + (1 + realSize wl + realSize wr)) := by
      simpa [realSize_node] using hp
    refine ih ⟨?_, hxs, setColor_sizeOk hwl⟩ ?_
    · rw [setColor_realSize, sz_eq_realSize hwr]
      omega
    · refine ⟨?_, hwr, ?_⟩
      · rw [sz_eq_realSize hxs]
        simp only [realSize_node, setColor_realSize]
        omega
      · simp only [realSize_node, setColor_realSize]
        have e : 1 + (1 + realSize x + realSize wl) + realSize wr =
            1 + realSize x + (1 + realSize wl + realSize wr) := by omega
        rw [e]
        exact hp'
  | case4 p c s k x hx color ws wl wk wr hw hnbb hw2 =>
    intro hxs hc
    rw [fixUpErase.eq_def]
    simp only [dif_neg hx, dif_pos hw, if_neg hnbb]
    obtain ⟨hs, hws, hp⟩ := hc
    obtain ⟨hwe, hwl, hwr⟩ := hws
    have hs' : s = 1 + realSize x + (1 + realSize wl + realSize wr) := by
      simpa [realSize_node] using hs
    have hp' : CtxSz p (1 + realSize x + (1 + realSize wl + realSize wr)) := by
      simpa [realSize_node] using hp
    refine eraseCase4L_sizeOk hxs hwl ?_ ?_
    · rw [sz_eq_realSize hwr]
      omega
    · refine ⟨?_, hwr, ?_⟩
      · rw [sz_eq_realSize hxs]
        omega
      · have e : 1 + (1 + realSize x + realSize wl) + realSize wr =
            1 + realSize x + (1 + realSize wl + realSize wr) := by omega
        rw [e]
        exact hp'
  | case5 p c s k x hx hnil1 hnil2 =>
    intro _ _
    simp [Tree.rootColor, RED, BLACK] at hnil1
  | case6 p c s k r x hx hwn hbb ih =>
    intro hxs hc
    rw [fixUpErase.eq_def]
    simp only [dif_neg hx, dif_neg hwn, if_pos hbb]
    obtain ⟨hs, hws, hp⟩ := hc
    refine ih ⟨?_, hxs, setColor_sizeOk hws⟩ ?_
    · rw [setColor_realSize]
      exact hs
    · rw [realSize_node, setColor_realSize]
      exact hp
  | case7 p c s k r x hx hwn hnbb =>
    intro hxs hc
    rw [fixUpErase.eq_def]
    simp only [dif_neg hx, dif_neg hwn, if_neg hnbb]
    obtain ⟨hs, hws, hp⟩ := hc
    exact eraseCase4L_sizeOk hxs hws hs hp
  | case8 p c s l k x hred =>
    intro hx hc
    rw [fixUpErase.eq_def]
    simp only [hred, reduceDIte]
    refine plug_sizeOk (setColor_sizeOk hx) ?_
    rw [setColor_realSize]
    exact hc
  | case9 p c s k x hx color ws wl wk wr hw hbb hw2 ih =>
    intro hxs hc
    rw [fixUpErase.eq_def]
    simp only [dif_neg hx, dif_pos hw, if_pos hbb]
    obtain ⟨hs, hws, hp⟩ := hc
    obtain ⟨hwe, hwl, hwr⟩ := hws
    have hs' : s = 1 + (1 + realSize wl + realSize wr) + realSize x := by
      simpa [realSize_node] using hs
    have hp' : CtxSz p (1 + (1 + realSize wl + realSize wr) + realSize x) := by
      simpa [realSize_node] using hp
    refine ih ⟨?_, setColor_sizeOk hwr, hxs⟩ ?_
    · rw [setColor_realSize, sz_eq_realSize hwl]
      omega
    · refine ⟨?_, hwl, ?_⟩
      · rw [sz_eq_realSize hxs]
        simp only [realSize_node, setColor_realSize]
        omega
      · simp only [realSize_node, setColor_realSize]
        have e : 1 + realSize wl + (1 + realSize wr + realSize x) =
            1 + (1 + realSize wl + realSize wr) + realSize x := by omega
        rw [e]
        exact hp'
  | case10 p c s k x hx color ws wl wk wr hw hnbb hw2 =>
    intro hxs hc
    rw [fixUpErase.eq_def]
    simp only [dif_neg hx, dif_pos hw, if_neg hnbb]
    obtain ⟨hs, hws, hp⟩ := hc
    obtain ⟨hwe, hwl, hwr⟩ := hws
    have hs' : s = 1 + (1 + realSize wl + realSize wr) + realSize x := by
      simpa [realSize_node] using hs
    have hp' : CtxSz p (1 + (1 + realSize wl + realSize wr) + realSize x) := by
      simpa [realSize_node] using hp
    refine eraseCase4R_sizeOk hxs hwr ?_ ?_
    · rw [sz_eq_realSize hwl]
      omega
    · refine ⟨?_, hwl, ?_⟩
      · rw [sz_eq_realSize hxs]
        omega
      · have e : 1 + realSize wl + (1 + realSize wr + realSize x) =
            1 + (1 + realSize wl + realSize wr) + realSize x := by omega
        rw [e]
        exact hp'
  | case11 p c s k x hx hnil1 hnil2 =>
    intro _ _
    simp [Tree.rootColor, RED, BLACK] at hnil1
  | case12 p c s l k x hx hwn hbb ih =>
    intro hxs hc
    rw [fixUpErase.eq_def]
    simp only [dif_neg hx, dif_neg hwn, if_pos hbb]
    obtain ⟨hs, hws, hp⟩ := hc
    refine ih ⟨?_, setColor_sizeOk hws, hxs⟩ ?_
    · rw [setColor_realSize]
      exact hs
    · rw [realSize_node, setColor_realSize]
      exact hp
  | case13 p c s l k x hx hwn hnbb =>
    intro hxs hc
    rw [fixUpErase.eq_def]
    simp only [dif_neg hx, dif_neg hwn, if_neg hnbb]
    obtain ⟨hs, hws, hp⟩ := hc
    exact eraseCase4R_sizeOk hxs hws hs hp



/-! ### erase: descent, successor, and the full specification -/

theorem isNil_nil : isNil (Tree.nil : Tree α) = true := rfl

theorem isNil_node {c : Bool} {s : Nat} {l r : Tree α} {k : α} :
    isNil (Tree.node c s l k r) = false := rfl

theorem searchLoc_absent [LinearOrder α] {k : α} :
    ∀ (cur : Tree α) (ctx : Ctx α), k ∉ flatten cur →
      (searchLoc k ctx cur).2 = Tree.nil := by
  intro cur
  induction cur with
  | nil => intro ctx _; rfl
  | node c s l k' r ihl ihr =>
    intro ctx hm
    have hm' : ¬(k ∈ flatten l ∨ k = k' ∨ k ∈ flatten r) := by
      simpa [Tree.flatten] using hm
    push_neg at hm'
    obtain ⟨hml, hne, hmr⟩ := hm'
    rcases lt_trichotomy k k' with hk | hk | hk
    · rw [searchLoc, if_pos hk]
      exact ihl _ hml
    · exact absurd hk hne
    · rw [searchLoc, if_neg (asymm hk), if_pos hk]
      exact ihr _ hmr

theorem searchLoc_found [LinearOrder α] {k : α} :
    ∀ (cur : Tree α) (ctx : Ctx α), Ordered cur → SizeOk cur →
      CtxSz ctx (realSize cur) → k ∈ flatten cur →
      ∃ ctx' zc zs zl zr,
        searchLoc k ctx cur = (ctx', Tree.node zc zs zl k zr) ∧
        Ctx.plug ctx' (Tree.node zc zs zl k zr) = Ctx.plug ctx cur ∧
        SizeOk (Tree.node zc zs zl k zr) ∧
        CtxSz ctx' (realSize (Tree.node zc zs zl k zr)) := by
  intro cur
  induction cur with
  | nil => intro ctx _ _ _ hm; simp [Tree.flatten] at hm
  | node c s l k' r ihl ihr =>
    intro ctx ho hs hc hm
    obtain ⟨hl, hr, ol, or_⟩ := ho
    obtain ⟨hsz, sl, sr⟩ := hs
    have hm' : k ∈ flatten l ∨ k = k' ∨ k ∈ flatten r := by
      simpa [Tree.flatten] using hm
    rcases hm' with h | rfl | h
    · have hk : k < k' := hl k h
      rw [searchLoc, if_pos hk]
      exact ihl (Ctx.left ctx c s k' r) ol sl ⟨hsz, sr, hc⟩ h
    · rw [searchLoc, if_neg (lt_irrefl k), if_neg (lt_irrefl k)]
      exact ⟨ctx, c, s, l, r, rfl, rfl, ⟨hsz, sl, sr⟩, hc⟩
    · have hk : k' < k := hr k h
      rw [searchLoc, if_neg (asymm hk), if_pos hk]
      exact ihr (Ctx.right ctx c s l k') or_ sr ⟨hsz, sl, hc⟩ h

theorem succClimb_eq (ctx : Ctx α) : succClimb ctx = (Ctx.ctxR ctx).head? := by
  induction ctx <;> simp [succClimb, Ctx.ctxR, *]

theorem successorAt_eq {ctx : Ctx α} {zc : Bool} {zs : Nat} {zl zr : Tree α} {zk : α} :
    successorAt ctx (Tree.node zc zs zl zk zr) = (flatten zr ++ Ctx.ctxR ctx).head? := by
  rw [successorAt]
  by_cases hr : zr = Tree.nil
  · subst hr
    simp [Tree.isNil, succClimb_eq, Tree.flatten]
  · have hnr : isNil zr = false := by
      cases zr
      · exact absurd rfl hr
      · rfl
    rw [hnr]
    simp only [Bool.false_eq_true, if_false]
    rw [minNode_rootKey hr, List.head?_append_of_ne_nil _ ?_]
    simpa [Ne, flatten_eq_nil_iff] using hr

theorem eraseAt_spec [LinearOrder α] {ctx : Ctx α} {zc : Bool} {zs : Nat} {zl : Tree α}
    {zk : α} {zr : Tree α}
    (hz : SizeOk (Tree.node zc zs zl zk zr))
    (hc : CtxSz ctx (realSize (Tree.node zc zs zl zk zr))) :
    flatten (eraseAt ctx zc zs zl zk zr).1 =
      Ctx.ctxL ctx ++ flatten zl ++ flatten zr ++ Ctx.ctxR ctx ∧
    SizeOk (eraseAt ctx zc zs zl zk zr).1 ∧
    (eraseAt ctx zc zs zl zk zr).2 = (flatten zr ++ Ctx.ctxR ctx).head? := by
  obtain ⟨hzs, szl, szr⟩ := hz
  have hsuc : successorAt (Ctx.decSizes ctx) (Tree.node zc zs zl zk zr) =
      (flatten zr ++ Ctx.ctxR ctx).head? := by
    rw [successorAt_eq, decSizes_ctxR]
  by_cases hl : zl = Tree.nil
  · subst hl
    have hc1 : CtxSz (Ctx.decSizes ctx) (realSize zr) := by
      refine decSizes_ctxSz ?_
      have e : realSize zr + 1 = realSize (Tree.node zc zs Tree.nil zk zr) := by
        simp [Tree.realSize]
        omega
      rw [e]
      exact hc
    rw [eraseAt.eq_def]
    simp only [isNil_nil, if_true, reduceIte]
    refine ⟨?_, ?_, hsuc⟩
    · split <;>
        simp [fixUpErase_flatten, plug_flatten, decSizes_ctxL, decSizes_ctxR, Tree.flatten]
    · split
      · exact fixUpErase_sizeOk _ _ szr hc1
      · exact plug_sizeOk szr hc1
  · have hnl : isNil zl = false := by
      cases zl
      · exact absurd rfl hl
      · rfl
    by_cases hr : zr = Tree.nil
    · subst hr
      have hc1 : CtxSz (Ctx.decSizes ctx) (realSize zl) := by
        refine decSizes_ctxSz ?_
        have e : realSize zl + 1 = realSize (Tree.node zc zs zl zk Tree.nil) := by
          simp [Tree.realSize]
          omega
        rw [e]
        exact hc
      rw [eraseAt.eq_def]
      simp only [hnl, isNil_nil, if_true, Bool.false_eq_true, if_false, reduceIte]
      refine ⟨?_, ?_, hsuc⟩
      · split <;>
          simp [fixUpErase_flatten, plug_flatten, decSizes_ctxL, decSizes_ctxR, Tree.flatten]
      · split
        · exact fixUpErase_sizeOk _ _ szl hc1
        · exact plug_sizeOk szl hc1
    · rcases zr with _ | ⟨rc, rs, rl, rk, rr⟩
      · exact absurd rfl hr
      obtain ⟨hrs, srl, srr⟩ := szr
      have hsr : SizeOk (Tree.node rc rs rl rk rr) := ⟨hrs, srl, srr⟩
      by_cases hrl : rl = Tree.nil
      · subst hrl
        have hbase : CtxSz (Ctx.right (Ctx.decSizes ctx) zc (rs + sz zl) zl rk)
            (realSize rr) := by
          refine ⟨?_, szl, ?_⟩
          · rw [sz_eq_realSize szl]
            simp only [Tree.realSize] at hrs
            omega
          · refine decSizes_ctxSz ?_
            have e : 1 + realSize zl + realSize rr + 1 =
                realSize (Tree.node zc zs zl zk (Tree.node rc rs Tree.nil rk rr)) := by
              simp [Tree.realSize]
              omega
            rw [e]
            exact hc
        rw [eraseAt.eq_def]
        simp only [hnl, isNil_nil, isNil_node, Bool.false_eq_true, if_false, if_true,
          reduceIte]
        refine ⟨?_, ?_, hsuc⟩
        · split <;>
            simp [fixUpErase_flatten, plug_flatten, decSizes_ctxL, decSizes_ctxR,
              Ctx.ctxL, Ctx.ctxR, Tree.flatten]
        · split
          · exact fixUpErase_sizeOk _ _ srr hbase
          · exact plug_sizeOk srr hbase
      · have hnrl : isNil rl = false := by
          cases rl
          · exact absurd rfl hrl
          · rfl
        have hzr_ne : (Tree.node rc rs rl rk rr) ≠ Tree.nil := by simp
        obtain ⟨yc, ys, yk, yr, hmin, hys, hyr⟩ := minNode_struct hsr hzr_ne
        have hhead : yk ∈ (flatten (Tree.node rc rs rl rk rr)).head? := by
          rw [← minNode_rootKey hzr_ne, hmin]
          rfl
        have hbase : CtxSz (Ctx.right (Ctx.decSizes ctx) zc
            (ys - sz yr + (rs - 1) + sz zl) zl yk)
            (realSize (Tree.node rc rs rl rk rr) - 1) := by
          have h1 : 1 ≤ realSize rl := by
            cases rl
            · exact absurd rfl hrl
            · simp [Tree.realSize]
              omega
          refine ⟨?_, szl, ?_⟩
          · rw [sz_eq_realSize hyr, sz_eq_realSize szl, hys]
            simp only [Tree.realSize] at hrs ⊢
            omega
          · refine decSizes_ctxSz ?_
            have e : 1 + realSize zl + (realSize (Tree.node rc rs rl rk rr) - 1) + 1 =
                realSize (Tree.node zc zs zl zk (Tree.node rc rs rl rk rr)) := by
              simp only [Tree.realSize]
              omega
            rw [e]
            exact hc
        obtain ⟨hps, hpsz⟩ := spliceSpine_ctxSz hsr hbase
        have hplug := spliceSpine_plug
          (Ctx.right (Ctx.decSizes ctx) zc (ys - sz yr + (rs - 1) + sz zl) zl yk)
          (Tree.node rc rs rl rk rr)
        have hcons := List.cons_head?_tail hhead
        have hred : eraseAt ctx zc zs zl zk (Tree.node rc rs rl rk rr) =
            (if yc = BLACK then
              fixUpErase (spliceSpine (Ctx.right (Ctx.decSizes ctx) zc
                  (ys - sz yr + (rs - 1) + sz zl) zl yk) (Tree.node rc rs rl rk rr)).1
                (spliceSpine (Ctx.right (Ctx.decSizes ctx) zc
                  (ys - sz yr + (rs - 1) + sz zl) zl yk) (Tree.node rc rs rl rk rr)).2
             else
              Ctx.plug (spliceSpine (Ctx.right (Ctx.decSizes ctx) zc
                  (ys - sz yr + (rs - 1) + sz zl) zl yk) (Tree.node rc rs rl rk rr)).1
                (spliceSpine (Ctx.right (Ctx.decSizes ctx) zc
                  (ys - sz yr + (rs - 1) + sz zl) zl yk) (Tree.node rc rs rl rk rr)).2,
             successorAt (Ctx.decSizes ctx)
               (Tree.node zc zs zl zk (Tree.node rc rs rl rk rr))) := by
          rw [eraseAt.eq_def]
          simp only [hnl, hnrl, isNil_nil, isNil_node, Bool.false_eq_true, if_false,
            if_true, reduceIte]
          rw [hmin]
        rw [hred]
        refine ⟨?_, ?_, hsuc⟩
        · split
          · rw [fixUpErase_flatten, ← plug_flatten, hplug, plug_flatten, delMin_flatten]
            simp only [Ctx.ctxL, Ctx.ctxR, decSizes_ctxL, decSizes_ctxR]
            rw [← hcons]
            simp [Tree.flatten]
          · rw [hplug, plug_flatten, delMin_flatten]
            simp only [Ctx.ctxL, Ctx.ctxR, decSizes_ctxL, decSizes_ctxR]
            rw [← hcons]
            simp [Tree.flatten]
        · split
          · exact fixUpErase_sizeOk _ _ hpsz hps
          · exact plug_sizeOk hpsz hps



theorem eraseKey_absent [LinearOrder α] {t : Tree α} {k : α} (hm : k ∉ flatten t) :
    eraseKey t k = (t, none) := by
  have h2 := searchLoc_absent t Ctx.root hm
  rw [eraseKey.eq_def]
  rcases hsl : searchLoc k Ctx.root t with ⟨ctx0, t0⟩
  rw [hsl] at h2
  simp only at h2
  subst h2
  rfl

theorem eraseKey_found [LinearOrder α] {t : Tree α} {k : α} (ho : Ordered t)
    (hs : SizeOk t) (hm : k ∈ flatten t) :
    ∃ l₁ l₂, flatten t = l₁ ++ k :: l₂ ∧
      flatten (eraseKey t k).1 = l₁ ++ l₂ ∧
      SizeOk (eraseKey t k).1 ∧
      (eraseKey t k).2 = l₂.head? := by
  obtain ⟨ctx', zc, zs, zl, zr, hsl, hplug, hz, hcz⟩ :=
    searchLoc_found t Ctx.root ho hs trivial hm
  have hred : eraseKey t k = eraseAt ctx' zc zs zl k zr := by
    rw [eraseKey.eq_def, hsl]
  obtain ⟨hf, hsz, hsucc⟩ := eraseAt_spec hz hcz
  have hT : flatten t = Ctx.ctxL ctx' ++ (flatten zl ++ k :: flatten zr) ++ Ctx.ctxR ctx' := by
    have h0 := congrArg flatten hplug
    rw [plug_flatten] at h0
    simpa [Ctx.plug, Tree.flatten] using h0.symm
  refine ⟨Ctx.ctxL ctx' ++ flatten zl, flatten zr ++ Ctx.ctxR ctx', ?_, ?_, ?_, ?_⟩
  · rw [hT]
    simp
  · rw [hred, hf]
    simp
  · rw [hred]
    exact hsz
  · rw [hred]
    exact hsucc

theorem erase_invariant [LinearOrder α] {t : Tree α} {k : α} (ho : Ordered t)
    (hs : SizeOk t) : Ordered (eraseKey t k).1 ∧ SizeOk (eraseKey t k).1 := by
  by_cases hm : k ∈ flatten t
  · obtain ⟨l₁, l₂, he, hf, hsz, _⟩ := eraseKey_found ho hs hm
    refine ⟨?_, hsz⟩
    rw [ordered_iff_sorted, hf, sorted_iff_pairwise]
    have hsort := ordered_iff_sorted.1 ho
    rw [he, sorted_iff_pairwise] at hsort
    refine List.Pairwise.sublist ?_ hsort
    exact List.Sublist.append_left (List.sublist_cons_self _ _) l₁
  · rw [eraseKey_absent hm]
    exact ⟨ho, hs⟩

theorem reachable_invariant [LinearOrder α] : ∀ {t : Tree α}, Reachable t →
    Ordered t ∧ SizeOk t := by
  intro t h
  induction h with
  | empty => exact ⟨trivial, trivial⟩
  | ins t k _ ih => exact insert_invariant ih.1 ih.2
  | del t k _ ih => exact erase_invariant ih.1 ih.2



/-! ### orderOfKey, findByOrder, search -/

theorem filter_lt_split [LinearOrder α] {l₁ l₂ : List α} {k : α}
    (h₁ : ∀ x ∈ l₁, x < k) (h₂ : ∀ x ∈ l₂, k < x) :
    ((l₁ ++ k :: l₂).filter (fun x => decide (x < k))).length = l₁.length := by
  rw [List.filter_append, List.filter_cons]
  have e1 : l₁.filter (fun x => decide (x < k)) = l₁ :=
    List.filter_eq_self.2 (fun a ha => by simpa using h₁ a ha)
  have e2 : l₂.filter (fun x => decide (x < k)) = [] :=
    List.filter_eq_nil.2 (fun a ha => by simpa using asymm (h₂ a ha))
  simp [e1, e2]

theorem sz_nil : sz (Tree.nil : Tree α) = 0 := rfl

theorem sz_node {c : Bool} {s : Nat} {l r : Tree α} {k : α} :
    sz (Tree.node c s l k r) = s := rfl

theorem leftT_node {c : Bool} {s : Nat} {l r : Tree α} {k : α} :
    leftT (Tree.node c s l k r) = l := rfl

theorem rootKey_node {c : Bool} {s : Nat} {l r : Tree α} {k : α} :
    rootKey (Tree.node c s l k r) = some k := rfl

theorem orderOfKeyGo_spec [LinearOrder α] (k : α) :
    ∀ (t : Tree α), Ordered t → SizeOk t → ∀ c : Nat,
      orderOfKeyGo k (c + sz t) t =
        c + ((flatten t).filter (fun x => decide (x < k))).length := by
  intro t
  induction t with
  | nil => intro _ _ c; simp [orderOfKeyGo, Tree.sz, Tree.flatten]
  | node c' s l k' r ihl ihr =>
    intro ho hs c
    obtain ⟨hl, hr, ol, or_⟩ := ho
    obtain ⟨hsz, sl, sr⟩ := hs
    have hszl := sz_eq_realSize sl
    have hszr := sz_eq_realSize sr
    have hll := realSize_eq_length l
    have hlr := realSize_eq_length r
    rcases lt_trichotomy k k' with hk | hk | hk
    · rw [orderOfKeyGo, if_pos hk]
      have e : c + sz (Tree.node c' s l k' r) - 1 - sz r = c + sz l := by
        rw [sz_node]
        omega
      rw [e, ihl ol sl c]
      have e1 : (flatten r).filter (fun x => decide (x < k)) = [] :=
        List.filter_eq_nil.2
          (fun a ha => by simpa using asymm (lt_trans hk (hr a ha)))
      have e2 : decide (k' < k) = false := by simpa using asymm hk
      simp [Tree.flatten, List.filter_append, List.filter_cons, e1, e2]
    · subst hk
      rw [orderOfKeyGo, if_neg (lt_irrefl k), if_neg (lt_irrefl k)]
      have e1 : (flatten l).filter (fun x => decide (x < k)) = flatten l :=
        List.filter_eq_self.2 (fun a ha => by simpa using hl a ha)
      have e2 : (flatten r).filter (fun x => decide (x < k)) = [] :=
        List.filter_eq_nil.2 (fun a ha => by simpa using asymm (hr a ha))
      simp only [Tree.flatten, List.filter_append, List.filter_cons, e1, e2,
        decide_eq_true_eq, lt_irrefl, if_false, sz_node]
      simp only [List.length_append, List.length_nil]
      omega
    · rw [orderOfKeyGo, if_neg (asymm hk), if_pos hk]
      have e : c + sz (Tree.node c' s l k' r) = (c + 1 + realSize l) + sz r := by
        rw [sz_node]
        omega
      rw [e, ihr or_ sr (c + 1 + realSize l)]
      have e1 : (flatten l).filter (fun x => decide (x < k)) = flatten l :=
        List.filter_eq_self.2
          (fun a ha => by simpa using lt_trans (hl a ha) hk)
      have e2 : decide (k' < k) = true := by simpa using hk
      simp only [Tree.flatten, List.filter_append, List.filter_cons, e1, e2, if_true]
      simp only [List.length_append, List.length_cons]
      omega

theorem orderOfKey_spec [LinearOrder α] {t : Tree α} (ho : Ordered t) (hs : SizeOk t)
    (k : α) :
    orderOfKey t k = ((flatten t).filter (fun x => decide (x < k))).length := by
  have h := orderOfKeyGo_spec k t ho hs 0
  rw [orderOfKey]
  simpa using h

theorem findByOrderGo_spec :
    ∀ (t : Tree α), SizeOk t → ∀ acc order : Nat, acc ≤ order →
      (order < acc + realSize t →
        rootKey (findByOrderGo order (acc + sz (leftT t)) t) =
          (flatten t)[order - acc]?) ∧
      (acc + realSize t ≤ order →
        findByOrderGo order (acc + sz (leftT t)) t = Tree.nil) := by
  intro t
  induction t with
  | nil =>
    intro _ acc order hao
    refine ⟨fun h => ?_, fun _ => rfl⟩
    simp only [Tree.realSize] at h
    omega
  | node c s l k r ihl ihr =>
    intro hs acc order hao
    obtain ⟨hsz, sl, sr⟩ := hs
    have hszl := sz_eq_realSize sl
    have hll := realSize_eq_length l
    have hlr := realSize_eq_length r
    simp only [leftT_node, realSize_node]
    by_cases he : acc + sz l = order
    · rw [findByOrderGo, if_pos he]
      refine ⟨fun _ => ?_, fun habs => absurd habs (by omega)⟩
      rw [rootKey_node, Tree.flatten]
      have e : order - acc = (flatten l).length := by omega
      rw [e, List.getElem?_append_right (le_refl _)]
      simp
    · rw [findByOrderGo, if_neg he]
      by_cases hlt : order < acc + sz l
      · rw [if_pos hlt]
        have e : acc + sz l - sz l + sz (leftT l) = acc + sz (leftT l) := by omega
        rw [e]
        obtain ⟨h1, h2⟩ := ihl sl acc order hao
        refine ⟨fun _ => ?_, fun habs => absurd habs (by omega)⟩
        rw [h1 (by omega), Tree.flatten, List.getElem?_append_left (by omega)]
      · rw [if_neg hlt]
        have e : acc + sz l + 1 + sz (leftT r) = (acc + realSize l + 1) + sz (leftT r) := by
          omega
        rw [e]
        obtain ⟨h1, h2⟩ := ihr sr (acc + realSize l + 1) order (by omega)
        refine ⟨fun hin => ?_, fun habs => h2 (by omega)⟩
        rw [h1 (by omega), Tree.flatten]
        symm
        rw [List.getElem?_append_right (by omega)]
        have e2 : order - acc - (flatten l).length = (order - (acc + realSize l + 1)) + 1 := by
          omega
        rw [e2, List.getElem?_cons_succ]

theorem findByOrder_spec {t : Tree α} (hs : SizeOk t) (order : Nat) :
    (order < realSize t → findByOrderKey t order = (flatten t)[order]?) ∧
    (realSize t ≤ order → findByOrder t order = Tree.nil) := by
  have h := findByOrderGo_spec t hs 0 order (Nat.zero_le _)
  rw [findByOrderKey, findByOrder]
  simpa using h

theorem search_found [LinearOrder α] {k : α} :
    ∀ (t : Tree α), Ordered t → k ∈ flatten t → search t k = Tree.node
      (rootColor (search t k)) (sz (search t k)) (leftT (search t k)) k
      (rightT (search t k)) ∧ findKey t k = some k := by
  intro t
  induction t with
  | nil => intro _ hm; simp [Tree.flatten] at hm
  | node c s l k' r ihl ihr =>
    intro ho hm
    obtain ⟨hl, hr, ol, or_⟩ := ho
    have hm' : k ∈ flatten l ∨ k = k' ∨ k ∈ flatten r := by
      simpa [Tree.flatten] using hm
    rcases hm' with h | rfl | h
    · have hk : k < k' := hl k h
      rw [search, if_pos hk]
      rw [findKey, search, if_pos hk]
      exact ⟨(ihl ol h).1, (ihl ol h).2⟩
    · rw [search, if_neg (lt_irrefl k), if_neg (lt_irrefl k)]
      rw [findKey, search, if_neg (lt_irrefl k), if_neg (lt_irrefl k)]
      exact ⟨rfl, rfl⟩
    · have hk : k' < k := hr k h
      rw [search, if_neg (asymm hk), if_pos hk]
      rw [findKey, search, if_neg (asymm hk), if_pos hk]
      exact ⟨(ihr or_ h).1, (ihr or_ h).2⟩

theorem sorted_filter_lt_get [LinearOrder α] :
    ∀ {l : List α}, l.Sorted (· < ·) → ∀ i (h : i < l.length),
      ((l.filter (fun x => decide (x < l[i]))).length = i) := by
  intro l
  induction l with
  | nil => intro _ i h; simp at h
  | cons a tl ih =>
    intro hs i h
    rw [List.sorted_cons] at hs
    obtain ⟨ha, htl⟩ := hs
    cases i with
    | zero =>
      simp only [List.getElem_cons_zero, List.filter_cons]
      have e0 : decide (a < a) = false := by simp
      have e1 : tl.filter (fun x => decide (x < a)) = [] :=
        List.filter_eq_nil.2 (fun b hb => by simpa using asymm (ha b hb))
      simp [e0, e1]
    | succ j =>
      simp only [List.getElem_cons_succ, List.filter_cons]
      have hj : j < tl.length := by simpa using h
      have e0 : decide (a < tl[j]) = true := by
        simpa using ha _ (tl.getElem_mem hj)
      rw [e0]
      simp only [if_true, List.length_cons]
      rw [ih htl j hj]



/-! ### Red-black color invariant: basic lemmas -/

theorem rootColor_nil : rootColor (Tree.nil : Tree α) = BLACK := rfl

theorem rootColor_node {c : Bool} {s : Nat} {l r : Tree α} {k : α} :
    rootColor (Tree.node c s l k r) = c := rfl

theorem setColor_node {c c' : Bool} {s : Nat} {l r : Tree α} {k : α} :
    setColor c' (Tree.node c s l k r) = Tree.node c' s l k r := rfl

theorem ctxColor_left {p : Ctx α} {c : Bool} {s : Nat} {k : α} {r : Tree α} :
    Ctx.color (Ctx.left p c s k r) = c := rfl

theorem ctxColor_right {p : Ctx α} {c : Bool} {s : Nat} {l : Tree α} {k : α} :
    Ctx.color (Ctx.right p c s l k) = c := rfl

theorem isRB_nil_h {h : Nat} (hx : IsRB (Tree.nil : Tree α) h) : h = 0 := by
  cases hx
  rfl

theorem isRB_red_inv {s h : Nat} {l r : Tree α} {k : α}
    (hx : IsRB (Tree.node RED s l k r) h) :
    IsRB l h ∧ IsRB r h ∧ rootColor l = BLACK ∧ rootColor r = BLACK := by
  cases hx with
  | red hl hr c1 c2 => exact ⟨hl, hr, c1, c2⟩

theorem isRB_black_inv {s h : Nat} {l r : Tree α} {k : α}
    (hx : IsRB (Tree.node BLACK s l k r) h) :
    ∃ h', h = h' + 1 ∧ IsRB l h' ∧ IsRB r h' := by
  cases hx with
  | black hl hr => exact ⟨_, rfl, hl, hr⟩

theorem blacken_isRB {x : Tree α} {h : Nat} (hx : IsRB x h) :
    ∃ H, IsRB (setColor BLACK x) H ∧ rootColor (setColor BLACK x) = BLACK := by
  cases hx with
  | nil => exact ⟨0, IsRB.nil, rfl⟩
  | red hl hr c1 c2 => exact ⟨_, IsRB.black hl hr, rfl⟩
  | black hl hr => exact ⟨_, IsRB.black hl hr, rfl⟩

theorem blackenRed_isRB {x : Tree α} {h : Nat} (hx : IsRB x h)
    (hr : rootColor x = RED) :
    IsRB (setColor BLACK x) (h + 1) ∧ rootColor (setColor BLACK x) = BLACK := by
  cases hx with
  | nil => simp [rootColor_nil, RED, BLACK] at hr
  | red hl hr' c1 c2 => exact ⟨IsRB.black hl hr', rfl⟩
  | black hl hr' => simp [rootColor_node, RED, BLACK] at hr

theorem blackenIRB_isRB {x : Tree α} {h : Nat} (hx : IRB x h)
    (hr : rootColor x = RED) :
    IsRB (setColor BLACK x) (h + 1) ∧ rootColor (setColor BLACK x) = BLACK := by
  rcases hx with hx | ⟨s, l, k, r, rfl, hl, hrr⟩
  · exact blackenRed_isRB hx hr
  · exact ⟨IsRB.black hl hrr, rfl⟩

theorem irb_black {x : Tree α} {h : Nat} (hx : IRB x h)
    (hb : ¬rootColor x = RED) : IsRB x h := by
  rcases hx with hx | ⟨s, l, k, r, rfl, hl, hrr⟩
  · exact hx
  · exact absurd rootColor_node hb

theorem redden_isRB {x : Tree α} {h : Nat} (hx : IsRB x (h + 1))
    (hroot : rootColor x = BLACK) (hl : rootColor (leftT x) = BLACK)
    (hr : rootColor (rightT x) = BLACK) :
    IsRB (setColor RED x) h ∧ rootColor (setColor RED x) = RED := by
  cases hx with
  | red hl' hr' c1 c2 => simp [rootColor_node, RED, BLACK] at hroot
  | black hl' hr' => exact ⟨IsRB.red hl' hr' hl hr, rfl⟩

theorem rootColor_plug : ∀ (ctx : Ctx α) (x : Tree α),
    rootColor (Ctx.plug ctx x) = Ctx.outColor ctx (rootColor x)
  | Ctx.root, _ => rfl
  | Ctx.left p c s k r, x => rootColor_plug p (Tree.node c s x k r)
  | Ctx.right p c s l k, x => rootColor_plug p (Tree.node c s l k x)

theorem outB_left {p : Ctx α} {c : Bool} {s : Nat} {k : α} {r : Tree α}
    (hb : Ctx.OutB p) (hc : p = Ctx.root → c = BLACK) :
    Ctx.OutB (Ctx.left p c s k r) := by
  cases p with
  | root => simpa [Ctx.OutB, Ctx.outColor] using hc rfl
  | left q c' s' k' r' => exact hb
  | right q c' s' l' k' => exact hb

theorem outB_right {p : Ctx α} {c : Bool} {s : Nat} {l : Tree α} {k : α}
    (hb : Ctx.OutB p) (hc : p = Ctx.root → c = BLACK) :
    Ctx.OutB (Ctx.right p c s l k) := by
  cases p with
  | root => simpa [Ctx.OutB, Ctx.outColor] using hc rfl
  | left q c' s' k' r' => exact hb
  | right q c' s' l' k' => exact hb

theorem outB_pop_left {p : Ctx α} {c : Bool} {s : Nat} {k : α} {r : Tree α}
    (hb : Ctx.OutB (Ctx.left p c s k r)) : Ctx.OutB p := by
  cases p with
  | root => trivial
  | left q c' s' k' r' => exact hb
  | right q c' s' l' k' => exact hb

theorem outB_pop_right {p : Ctx α} {c : Bool} {s : Nat} {l : Tree α} {k : α}
    (hb : Ctx.OutB (Ctx.right p c s l k)) : Ctx.OutB p := by
  cases p with
  | root => trivial
  | left q c' s' k' r' => exact hb
  | right q c' s' l' k' => exact hb

theorem plug_rootBlack {ctx : Ctx α} {x : Tree α} (hb : Ctx.OutB ctx)
    (hr : ctx = Ctx.root → rootColor x = BLACK) :
    rootColor (Ctx.plug ctx x) = BLACK := by
  cases ctx with
  | root => exact hr rfl
  | left p c s k r => rw [rootColor_plug]; exact hb
  | right p c s l k => rw [rootColor_plug]; exact hb

theorem plug_isRB {ctx : Ctx α} {h : Nat} (hctx : CtxRB ctx h) :
    ∀ {x : Tree α}, IsRB x h → (rootColor x = BLACK ∨ Ctx.color ctx = BLACK) →
      ∃ H, IsRB (Ctx.plug ctx x) H := by
  induction hctx with
  | root => exact fun hx _ => ⟨_, hx⟩
  | leftB hp hr ih => exact fun hx _ => ih (IsRB.black hx hr) (Or.inl rootColor_node)
  | leftR hp hpc hr hrb ih =>
    intro x hx hor
    have hxb : rootColor x = BLACK := by
      rcases hor with h1 | h1
      · exact h1
      · rw [ctxColor_left] at h1; simp [RED, BLACK] at h1
    exact ih (IsRB.red hx hr hxb hrb) (Or.inr hpc)
  | rightB hp hl ih => exact fun hx _ => ih (IsRB.black hl hx) (Or.inl rootColor_node)
  | rightR hp hpc hl hlb ih =>
    intro x hx hor
    have hxb : rootColor x = BLACK := by
      rcases hor with h1 | h1
      · exact h1
      · rw [ctxColor_right] at h1; simp [RED, BLACK] at h1
    exact ih (IsRB.red hl hx hlb hxb) (Or.inr hpc)

theorem ctxColor_incSizes (p : Ctx α) : Ctx.color (Ctx.incSizes p) = Ctx.color p := by
  cases p <;> rfl

theorem ctxColor_decSizes (p : Ctx α) : Ctx.color (Ctx.decSizes p) = Ctx.color p := by
  cases p <;> rfl

theorem outColor_incSizes : ∀ (p : Ctx α) (c : Bool),
    Ctx.outColor (Ctx.incSizes p) c = Ctx.outColor p c
  | Ctx.root, _ => rfl
  | Ctx.left p c' _ _ _, _ => outColor_incSizes p c'
  | Ctx.right p c' _ _ _, _ => outColor_incSizes p c'

theorem outColor_decSizes : ∀ (p : Ctx α) (c : Bool),
    Ctx.outColor (Ctx.decSizes p) c = Ctx.outColor p c
  | Ctx.root, _ => rfl
  | Ctx.left p c' _ _ _, _ => outColor_decSizes p c'
  | Ctx.right p c' _ _ _, _ => outColor_decSizes p c'

theorem outB_incSizes {ctx : Ctx α} (hb : Ctx.OutB ctx) : Ctx.OutB (Ctx.incSizes ctx) := by
  cases ctx with
  | root => trivial
  | left p c s k r => simpa [Ctx.OutB, Ctx.incSizes, outColor_incSizes] using hb
  | right p c s l k => simpa [Ctx.OutB, Ctx.incSizes, outColor_incSizes] using hb

theorem outB_decSizes {ctx : Ctx α} (hb : Ctx.OutB ctx) : Ctx.OutB (Ctx.decSizes ctx) := by
  cases ctx with
  | root => trivial
  | left p c s k r => simpa [Ctx.OutB, Ctx.decSizes, outColor_decSizes] using hb
  | right p c s l k => simpa [Ctx.OutB, Ctx.decSizes, outColor_decSizes] using hb

theorem incSizes_ctxRB {ctx : Ctx α} {h : Nat} (hc : CtxRB ctx h) :
    CtxRB (Ctx.incSizes ctx) h := by
  induction hc with
  | root => exact CtxRB.root
  | leftB hp hr ih => exact CtxRB.leftB ih hr
  | leftR hp hpc hr hrb ih =>
    exact CtxRB.leftR ih (by rw [ctxColor_incSizes]; exact hpc) hr hrb
  | rightB hp hl ih => exact CtxRB.rightB ih hl
  | rightR hp hpc hl hlb ih =>
    exact CtxRB.rightR ih (by rw [ctxColor_incSizes]; exact hpc) hl hlb

theorem decSizes_ctxRB {ctx : Ctx α} {h : Nat} (hc : CtxRB ctx h) :
    CtxRB (Ctx.decSizes ctx) h := by
  induction hc with
  | root => exact CtxRB.root
  | leftB hp hr ih => exact CtxRB.leftB ih hr
  | leftR hp hpc hr hrb ih =>
    exact CtxRB.leftR ih (by rw [ctxColor_decSizes]; exact hpc) hr hrb
  | rightB hp hl ih => exact CtxRB.rightB ih hl
  | rightR hp hpc hl hlb ih =>
    exact CtxRB.rightR ih (by rw [ctxColor_decSizes]; exact hpc) hl hlb


theorem black_of_not_red {c : Bool} (hc : ¬c = RED) : c = BLACK := by
  cases c
  · exact absurd rfl hc
  · rfl

theorem fixUpInsert_isRB (ctx : Ctx α) (z : Tree α) :
    ∀ h : Nat, CtxRB ctx h → IsRB z h → rootColor z = RED →
      ∃ H, IsRB (fixUpInsert ctx z) H ∧ rootColor (fixUpInsert ctx z) = BLACK := by
  induction ctx, z using fixUpInsert.induct with
  | case1 z =>
    intro h hctx hz hzr
    rw [fixUpInsert.eq_def]
    exact blacken_isRB hz
  | case2 ps pk pr z =>
    intro h hctx hz hzr
    rw [fixUpInsert.eq_def]
    simp only [RED, reduceIte]
    cases hctx with
    | leftR hp hpc hr hrb => exact ⟨h + 1, IsRB.black hz hr, rootColor_node⟩
  | case3 ps pk pr z gctx gc gs gk gu hgu ih =>
    intro h hctx hz hzr
    rw [fixUpInsert.eq_def]
    simp only [RED, reduceIte, hgu]
    cases hctx with
    | leftR hp hpc hr hrb =>
      rw [ctxColor_left] at hpc
      subst hpc
      cases hp with
      | leftB hgp hgu2 =>
        have hgu3 := blackenRed_isRB hgu2 hgu
        exact ih (h + 1) hgp
          (IsRB.red (IsRB.black hz hr) hgu3.1 rootColor_node hgu3.2) rootColor_node
  | case4 ps pk pr z gctx gc gs gk gu hgu =>
    intro h hctx hz hzr
    rw [fixUpInsert.eq_def]
    simp only [RED] at hgu
    simp only [RED, reduceIte, if_neg hgu]
    cases hctx with
    | leftR hp hpc hr hrb =>
      rw [ctxColor_left] at hpc
      subst hpc
      cases hp with
      | leftB hgp hgu2 =>
        have hgub : rootColor gu = BLACK := black_of_not_red hgu
        obtain ⟨H, hP⟩ := plug_isRB hgp
          (IsRB.black hz (IsRB.red hr hgu2 hrb hgub)) (Or.inl rootColor_node)
        exact blacken_isRB hP
  | case5 ps pk pr z gctx gc gs gl gk hgl ih =>
    intro h hctx hz hzr
    rw [fixUpInsert.eq_def]
    simp only [RED, reduceIte, hgl]
    cases hctx with
    | leftR hp hpc hr hrb =>
      rw [ctxColor_right] at hpc
      subst hpc
      cases hp with
      | rightB hgp hgl2 =>
        have hgl3 := blackenRed_isRB hgl2 hgl
        exact ih (h + 1) hgp
          (IsRB.red hgl3.1 (IsRB.black hz hr) hgl3.2 rootColor_node) rootColor_node
  | case6 ps pk pr z gctx gc gs gl gk hgl =>
    intro h hctx hz hzr
    rw [fixUpInsert.eq_def]
    simp only [RED] at hgl
    simp only [RED, reduceIte, if_neg hgl]
    cases hctx with
    | leftR hp hpc hr hrb =>
      rw [ctxColor_right] at hpc
      subst hpc
      cases hp with
      | rightB hgp hgl2 =>
        have hglb : rootColor gl = BLACK := black_of_not_red hgl
        cases z with
        | nil => rw [rootColor_nil] at hzr; exact absurd hzr (by simp [RED, BLACK])
        | node zc zs zl zk zr =>
          rw [rootColor_node] at hzr
          subst hzr
          obtain ⟨hzl, hzr2, hzlb, hzrb⟩ := isRB_red_inv hz
          obtain ⟨H, hP⟩ := plug_isRB hgp
            (IsRB.black (IsRB.red hgl2 hzl hglb hzlb) (IsRB.red hzr2 hr hzrb hrb))
            (Or.inl rootColor_node)
          exact blacken_isRB hP
  | case7 pctx pc ps pk pr z hred =>
    intro h hctx hz hzr
    rw [fixUpInsert.eq_def]
    simp only [if_neg hred]
    have hpcb := black_of_not_red hred
    subst hpcb
    cases hctx with
    | leftB hp hr =>
      obtain ⟨H, hP⟩ := plug_isRB hp (IsRB.black hz hr) (Or.inl rootColor_node)
      exact blacken_isRB hP
  | case8 ps pl pk z =>
    intro h hctx hz hzr
    rw [fixUpInsert.eq_def]
    simp only [RED, reduceIte]
    cases hctx with
    | rightR hp hpc hl hlb => exact ⟨h + 1, IsRB.black hl hz, rootColor_node⟩
  | case9 ps pl pk z gctx gc gs gk gu hgu ih =>
    intro h hctx hz hzr
    rw [fixUpInsert.eq_def]
    simp only [RED, reduceIte, hgu]
    cases hctx with
    | rightR hp hpc hl hlb =>
      rw [ctxColor_left] at hpc
      subst hpc
      cases hp with
      | leftB hgp hgu2 =>
        have hgu3 := blackenRed_isRB hgu2 hgu
        exact ih (h + 1) hgp
          (IsRB.red (IsRB.black hl hz) hgu3.1 rootColor_node hgu3.2) rootColor_node
  | case10 ps pl pk z gctx gc gs gk gu hgu =>
    intro h hctx hz hzr
    rw [fixUpInsert.eq_def]
    simp only [RED] at hgu
    simp only [RED, reduceIte, if_neg hgu]
    cases hctx with
    | rightR hp hpc hl hlb =>
      rw [ctxColor_left] at hpc
      subst hpc
      cases hp with
      | leftB hgp hgu2 =>
        have hgub : rootColor gu = BLACK := black_of_not_red hgu
        cases z with
        | nil => rw [rootColor_nil] at hzr; exact absurd hzr (by simp [RED, BLACK])
        | node zc zs zl zk zr =>
          rw [rootColor_node] at hzr
          subst hzr
          obtain ⟨hzl, hzr2, hzlb, hzrb⟩ := isRB_red_inv hz
          obtain ⟨H, hP⟩ := plug_isRB hgp
            (IsRB.black (IsRB.red hl hzl hlb hzlb) (IsRB.red hzr2 hgu2 hzrb hgub))
            (Or.inl rootColor_node)
          exact blacken_isRB hP
  | case11 ps pl pk z gctx gc gs gl gk hgl ih =>
    intro h hctx hz hzr
    rw [fixUpInsert.eq_def]
    simp only [RED, reduceIte, hgl]
    cases hctx with
    | rightR hp hpc hl hlb =>
      rw [ctxColor_right] at hpc
      subst hpc
      cases hp with
      | rightB hgp hgl2 =>
        have hgl3 := blackenRed_isRB hgl2 hgl
        exact ih (h + 1) hgp
          (IsRB.red hgl3.1 (IsRB.black hl hz) hgl3.2 rootColor_node) rootColor_node
  | case12 ps pl pk z gctx gc gs gl gk hgl =>
    intro h hctx hz hzr
    rw [fixUpInsert.eq_def]
    simp only [RED] at hgl
    simp only [RED, reduceIte, if_neg hgl]
    cases hctx with
    | rightR hp hpc hl hlb =>
      rw [ctxColor_right] at hpc
      subst hpc
      cases hp with
      | rightB hgp hgl2 =>
        have hglb : rootColor gl = BLACK := black_of_not_red hgl
        obtain ⟨H, hP⟩ := plug_isRB hgp
          (IsRB.black (IsRB.red hgl2 hl hglb hlb) hz)
          (Or.inl rootColor_node)
        exact blacken_isRB hP
  | case13 pctx pc ps pl pk z hred =>
    intro h hctx hz hzr
    rw [fixUpInsert.eq_def]
    simp only [if_neg hred]
    have hpcb := black_of_not_red hred
    subst hpcb
    cases hctx with
    | rightB hp hl =>
      obtain ⟨H, hP⟩ := plug_isRB hp (IsRB.black hl hz) (Or.inl rootColor_node)
      exact blacken_isRB hP


theorem insertGo_isRB [LinearOrder α] (key : α) :
    ∀ (t : Tree α) (ctx : Ctx α) (h : Nat), CtxRB ctx h → Ctx.OutB ctx → IsRB t h →
      (Ctx.color ctx = RED → rootColor t = BLACK) →
      (ctx = Ctx.root → rootColor t = BLACK) →
      ∃ H, IsRB (insertGo key ctx t).1 H ∧ rootColor (insertGo key ctx t).1 = BLACK := by
  intro t
  induction t with
  | nil =>
    intro ctx h hctx hob hz hbc hbr
    have h0 : h = 0 := isRB_nil_h hz
    subst h0
    rw [insertGo]
    exact fixUpInsert_isRB _ _ 0 (incSizes_ctxRB hctx)
      (IsRB.red IsRB.nil IsRB.nil rootColor_nil rootColor_nil) rootColor_node
  | node c s l k r ihl ihr =>
    intro ctx h hctx hob hz hbc hbr
    rw [insertGo]
    by_cases hlt : key < k
    · rw [if_pos hlt]
      cases hz with
      | red hl hr c1 c2 =>
        have hbcc : Ctx.color ctx = BLACK := by
          by_cases hcc : Ctx.color ctx = RED
          · have h2 := hbc hcc
            rw [rootColor_node] at h2
            exact absurd h2 (by simp [RED, BLACK])
          · exact black_of_not_red hcc
        refine ihl (Ctx.left ctx RED s k r) h (CtxRB.leftR hctx hbcc hr c2)
          (outB_left hob ?_) hl (fun _ => c1) (fun hroot => absurd hroot (by simp))
        intro hroot
        have h2 := hbr hroot
        rw [rootColor_node] at h2
        exact absurd h2 (by simp [RED, BLACK])
      | black hl hr =>
        refine ihl (Ctx.left ctx BLACK s k r) _ (CtxRB.leftB hctx hr)
          (outB_left hob (fun _ => rfl)) hl ?_ (fun hroot => absurd hroot (by simp))
        intro hcc
        rw [ctxColor_left] at hcc
        exact absurd hcc (by simp [RED, BLACK])
    · rw [if_neg hlt]
      by_cases hgt : k < key
      · rw [if_pos hgt]
        cases hz with
        | red hl hr c1 c2 =>
          have hbcc : Ctx.color ctx = BLACK := by
            by_cases hcc : Ctx.color ctx = RED
            · have h2 := hbc hcc
              rw [rootColor_node] at h2
              exact absurd h2 (by simp [RED, BLACK])
            · exact black_of_not_red hcc
          refine ihr (Ctx.right ctx RED s l k) h (CtxRB.rightR hctx hbcc hl c1)
            (outB_right hob ?_) hr (fun _ => c2) (fun hroot => absurd hroot (by simp))
          intro hroot
          have h2 := hbr hroot
          rw [rootColor_node] at h2
          exact absurd h2 (by simp [RED, BLACK])
        | black hl hr =>
          refine ihr (Ctx.right ctx BLACK s l k) _ (CtxRB.rightB hctx hl)
            (outB_right hob (fun _ => rfl)) hr ?_ (fun hroot => absurd hroot (by simp))
          intro hcc
          rw [ctxColor_right] at hcc
          exact absurd hcc (by simp [RED, BLACK])
      · rw [if_neg hgt]
        have hor : rootColor (Tree.node c s l k r) = BLACK ∨ Ctx.color ctx = BLACK := by
          by_cases hcc : Ctx.color ctx = RED
          · exact Or.inl (hbc hcc)
          · exact Or.inr (black_of_not_red hcc)
        obtain ⟨H, hP⟩ := plug_isRB hctx hz hor
        exact ⟨H, hP, plug_rootBlack hob hbr⟩

theorem insert_isRB [LinearOrder α] {t : Tree α} {h : Nat} (hz : IsRB t h)
    (hb : rootColor t = BLACK) (key : α) :
    ∃ H, IsRB (insert t key).1 H ∧ rootColor (insert t key).1 = BLACK := by
  refine insertGo_isRB key t Ctx.root h CtxRB.root trivial hz ?_ (fun _ => hb)
  intro hcc
  exact absurd hcc (by simp [Ctx.color, RED, BLACK])


theorem red_of_not_black {c : Bool} (hc : ¬c = BLACK) : c = RED := by
  cases c
  · rfl
  · exact absurd rfl hc

theorem rightT_node {c : Bool} {s : Nat} {l r : Tree α} {k : α} :
    rightT (Tree.node c s l k r) = r := rfl

theorem eraseCase4L_isRB {pctx1 : Ctx α} (pc1 : Bool) (ps1 : Nat) {x : Tree α} (pk1 : α)
    {w1 : Tree α} {h : Nat}
    (hctx : CtxRB pctx1 (if pc1 = BLACK then h + 2 else h + 1))
    (hpcc : pc1 = RED → Ctx.color pctx1 = BLACK)
    (hx : IsRB x h)
    (hw : IsRB w1 (h + 1)) (hwb : rootColor w1 = BLACK)
    (hred : rootColor (leftT w1) = RED ∨ rootColor (rightT w1) = RED) :
    ∃ H, IsRB (eraseCase4L pctx1 pc1 ps1 x pk1 w1) H ∧
      rootColor (eraseCase4L pctx1 pc1 ps1 x pk1 w1) = BLACK := by
  cases w1 with
  | nil =>
    rcases hred with h1 | h1 <;>
      simp [Tree.leftT, Tree.rightT, rootColor_nil, RED, BLACK] at h1
  | node wc wsz wll wkk wrr =>
    rw [rootColor_node] at hwb
    subst hwb
    obtain ⟨h', he, hwl, hwr⟩ := isRB_black_inv hw
    obtain rfl : h = h' := by omega
    rw [eraseCase4L.eq_def]
    by_cases hrr : rootColor wrr = BLACK
    · have hwllr : rootColor wll = RED := by
        rcases hred with h1 | h1
        · rwa [leftT_node] at h1
        · rw [rightT_node] at h1
          rw [h1] at hrr
          simp [RED, BLACK] at hrr
      simp only [rightT_node, if_pos hrr]
      cases wll with
      | nil => rw [rootColor_nil] at hwllr; simp [RED, BLACK] at hwllr
      | node wlc wls wl1 wlk wl2 =>
        rw [rootColor_node] at hwllr
        subst hwllr
        obtain ⟨hwl1, hwl2, hb1, hb2⟩ := isRB_red_inv hwl
        have hR2 : IsRB (setColor BLACK
            (Tree.node RED (wsz - sz wl1 - 1) wl2 wkk wrr)) (h + 1) :=
          IsRB.black hwl2 hwr
        cases pc1 with
        | false =>
          obtain ⟨H, hP⟩ := plug_isRB hctx
            (IsRB.red (IsRB.black hx hwl1) hR2 rootColor_node rfl)
            (Or.inr (hpcc rfl))
          exact blacken_isRB hP
        | true =>
          obtain ⟨H, hP⟩ := plug_isRB hctx
            (IsRB.black (IsRB.black hx hwl1) hR2) (Or.inl rootColor_node)
          exact blacken_isRB hP
    · have hrr2 : rootColor wrr = RED := red_of_not_black hrr
      simp only [rightT_node, if_neg hrr]
      have hW' := blackenRed_isRB hwr hrr2
      cases pc1 with
      | false =>
        obtain ⟨H, hP⟩ := plug_isRB hctx
          (IsRB.red (IsRB.black hx hwl) hW'.1 rootColor_node hW'.2)
          (Or.inr (hpcc rfl))
        exact blacken_isRB hP
      | true =>
        obtain ⟨H, hP⟩ := plug_isRB hctx
          (IsRB.black (IsRB.black hx hwl) hW'.1) (Or.inl rootColor_node)
        exact blacken_isRB hP

theorem eraseCase4R_isRB {pctx1 : Ctx α} (pc1 : Bool) (ps1 : Nat) {x : Tree α} (pk1 : α)
    {w1 : Tree α} {h : Nat}
    (hctx : CtxRB pctx1 (if pc1 = BLACK then h + 2 else h + 1))
    (hpcc : pc1 = RED → Ctx.color pctx1 = BLACK)
    (hx : IsRB x h)
    (hw : IsRB w1 (h + 1)) (hwb : rootColor w1 = BLACK)
    (hred : rootColor (leftT w1) = RED ∨ rootColor (rightT w1) = RED) :
    ∃ H, IsRB (eraseCase4R pctx1 pc1 ps1 w1 pk1 x) H ∧
      rootColor (eraseCase4R pctx1 pc1 ps1 w1 pk1 x) = BLACK := by
  cases w1 with
  | nil =>
    rcases hred with h1 | h1 <;>
      simp [Tree.leftT, Tree.rightT, rootColor_nil, RED, BLACK] at h1
  | node wc wsz wll wkk wrr =>
    rw [rootColor_node] at hwb
    subst hwb
    obtain ⟨h', he, hwl, hwr⟩ := isRB_black_inv hw
    obtain rfl : h = h' := by omega
    rw [eraseCase4R.eq_def]
    by_cases hll : rootColor wll = BLACK
    · have hwrrr : rootColor wrr = RED := by
        rcases hred with h1 | h1
        · rw [leftT_node] at h1
          rw [h1] at hll
          simp [RED, BLACK] at hll
        · rwa [rightT_node] at h1
      simp only [leftT_node, if_pos hll]
      cases wrr with
      | nil => rw [rootColor_nil] at hwrrr; simp [RED, BLACK] at hwrrr
      | node wrc wrs wr1 wrk wr2 =>
        rw [rootColor_node] at hwrrr
        subst hwrrr
        obtain ⟨hwr1, hwr2, hc1, hc2⟩ := isRB_red_inv hwr
        have hL2 : IsRB (setColor BLACK
            (Tree.node RED (wsz - sz wr2 - 1) wll wkk wr1)) (h + 1) :=
          IsRB.black hwl hwr1
        cases pc1 with
        | false =>
          obtain ⟨H, hP⟩ := plug_isRB hctx
            (IsRB.red hL2 (IsRB.black hwr2 hx) rfl rootColor_node)
            (Or.inr (hpcc rfl))
          exact blacken_isRB hP
        | true =>
          obtain ⟨H, hP⟩ := plug_isRB hctx
            (IsRB.black hL2 (IsRB.black hwr2 hx)) (Or.inl rootColor_node)
          exact blacken_isRB hP
    · have hll2 : rootColor wll = RED := red_of_not_black hll
      simp only [leftT_node, if_neg hll]
      have hW' := blackenRed_isRB hwl hll2
      cases pc1 with
      | false =>
        obtain ⟨H, hP⟩ := plug_isRB hctx
          (IsRB.red hW'.1 (IsRB.black hwr hx) hW'.2 rootColor_node)
          (Or.inr (hpcc rfl))
        exact blacken_isRB hP
      | true =>
        obtain ⟨H, hP⟩ := plug_isRB hctx
          (IsRB.black hW'.1 (IsRB.black hwr hx)) (Or.inl rootColor_node)
        exact blacken_isRB hP


theorem fixUpErase_isRB (ctx : Ctx α) (x : Tree α) :
    ∀ h : Nat, CtxRB ctx (h + 1) → Ctx.OutB ctx → IRB x h →
      ∃ H, IsRB (fixUpErase ctx x) H ∧ rootColor (fixUpErase ctx x) = BLACK := by
  induction ctx, x using fixUpErase.induct with
  | case1 x =>
    intro h hctx hob hirb
    rw [fixUpErase.eq_def]
    rcases hirb with hx | ⟨s, l, k, r, rfl, hl, hr⟩
    · exact blacken_isRB hx
    · exact ⟨h + 1, IsRB.black hl hr, rfl⟩
  | case2 p c s k r x hred =>
    intro h hctx hob hirb
    rw [fixUpErase.eq_def]
    simp only []
    rw [dif_pos hred]
    have hX := blackenIRB_isRB hirb hred
    cases hctx with
    | leftB hp hr1 =>
      obtain ⟨H, hP⟩ := plug_isRB hp (IsRB.black hX.1 hr1) (Or.inl rootColor_node)
      exact ⟨H, hP, plug_rootBlack hob (fun h2 => absurd h2 (by simp))⟩
    | leftR hp hpc hr1 hrb1 =>
      obtain ⟨H, hP⟩ := plug_isRB hp (IsRB.red hX.1 hr1 hX.2 hrb1) (Or.inr hpc)
      exact ⟨H, hP, plug_rootBlack hob (fun h2 => absurd h2 (by simp))⟩
  | case3 p c s k x hx color ws wl wk wr hw hbb hw2 ih =>
    intro h hctx hob hirb
    rw [fixUpErase.eq_def]
    simp only []
    rw [dif_neg hx, dif_pos hw]
    simp only [if_pos hbb]
    cases hctx with
    | leftR hp hpc hr1 hrb1 =>
      rw [rootColor_node] at hw hrb1
      rw [hw] at hrb1
      simp [RED, BLACK] at hrb1
    | leftB hp hw1 =>
      rw [rootColor_node] at hw
      subst hw
      obtain ⟨hwl1, hwr1, hwlb, hwrb⟩ := isRB_red_inv hw1
      have hred2 := redden_isRB hwl1 hwlb hbb.1 hbb.2
      have hxt : IsRB x h := irb_black hirb hx
      exact ih h (CtxRB.leftB hp hwr1) (outB_left (outB_pop_left hob) (fun _ => rfl))
        (Or.inr ⟨_, _, _, _, rfl, hxt, hred2.1⟩)
  | case4 p c s k x hx color ws wl wk wr hw hnbb hw2 =>
    intro h hctx hob hirb
    rw [fixUpErase.eq_def]
    simp only []
    rw [dif_neg hx, dif_pos hw]
    simp only [if_neg hnbb]
    cases hctx with
    | leftR hp hpc hr1 hrb1 =>
      rw [rootColor_node] at hw hrb1
      rw [hw] at hrb1
      simp [RED, BLACK] at hrb1
    | leftB hp hw1 =>
      rw [rootColor_node] at hw
      subst hw
      obtain ⟨hwl1, hwr1, hwlb, hwrb⟩ := isRB_red_inv hw1
      have hxt : IsRB x h := irb_black hirb hx
      have hor : rootColor (leftT wl) = RED ∨ rootColor (rightT wl) = RED := by
        by_cases h1 : rootColor (leftT wl) = BLACK
        · exact Or.inr (red_of_not_black (fun h2 => hnbb ⟨h1, h2⟩))
        · exact Or.inl (red_of_not_black h1)
      exact eraseCase4L_isRB RED (s - sz wr - 1) k (CtxRB.leftB hp hwr1)
        (fun _ => rfl) hxt hwl1 hwlb hor
  | case5 p c s k x hx hnil1 hnil2 =>
    intro h hctx hob hirb
    simp [Tree.rootColor, RED, BLACK] at hnil1
  | case6 p c s k r x hx hwn hbb ih =>
    intro h hctx hob hirb
    rw [fixUpErase.eq_def]
    simp only []
    rw [dif_neg hx, dif_neg hwn]
    simp only [if_pos hbb]
    have hxt : IsRB x h := irb_black hirb hx
    have hwnb : rootColor r = BLACK := black_of_not_red hwn
    cases hctx with
    | leftB hp hr1 =>
      have hred2 := redden_isRB hr1 hwnb hbb.1 hbb.2
      exact ih (h + 1) hp (outB_pop_left hob) (Or.inl (IsRB.black hxt hred2.1))
    | leftR hp hpc hr1 hrb1 =>
      have hred2 := redden_isRB hr1 hwnb hbb.1 hbb.2
      exact ih h hp (outB_pop_left hob) (Or.inr ⟨_, _, _, _, rfl, hxt, hred2.1⟩)
  | case7 p c s k r x hx hwn hnbb =>
    intro h hctx hob hirb
    rw [fixUpErase.eq_def]
    simp only []
    rw [dif_neg hx, dif_neg hwn]
    simp only [if_neg hnbb]
    have hxt : IsRB x h := irb_black hirb hx
    have hwnb : rootColor r = BLACK := black_of_not_red hwn
    have hor : rootColor (leftT r) = RED ∨ rootColor (rightT r) = RED := by
      by_cases h1 : rootColor (leftT r) = BLACK
      · exact Or.inr (red_of_not_black (fun h2 => hnbb ⟨h1, h2⟩))
      · exact Or.inl (red_of_not_black h1)
    cases hctx with
    | leftB hp hr1 =>
      exact eraseCase4L_isRB BLACK s k hp
        (fun h2 => absurd h2 (by simp [RED, BLACK])) hxt hr1 hwnb hor
    | leftR hp hpc hr1 hrb1 =>
      exact eraseCase4L_isRB RED s k hp (fun _ => hpc) hxt hr1 hrb1 hor
  | case8 p c s l k x hred =>
    intro h hctx hob hirb
    rw [fixUpErase.eq_def]
    simp only []
    rw [dif_pos hred]
    have hX := blackenIRB_isRB hirb hred
    cases hctx with
    | rightB hp hl1 =>
      obtain ⟨H, hP⟩ := plug_isRB hp (IsRB.black hl1 hX.1) (Or.inl rootColor_node)
      exact ⟨H, hP, plug_rootBlack hob (fun h2 => absurd h2 (by simp))⟩
    | rightR hp hpc hl1 hlb1 =>
      obtain ⟨H, hP⟩ := plug_isRB hp (IsRB.red hl1 hX.1 hlb1 hX.2) (Or.inr hpc)
      exact ⟨H, hP, plug_rootBlack hob (fun h2 => absurd h2 (by simp))⟩
  | case9 p c s k x hx color ws wl wk wr hw hbb hw2 ih =>
    intro h hctx hob hirb
    rw [fixUpErase.eq_def]
    simp only []
    rw [dif_neg hx, dif_pos hw]
    simp only [if_pos hbb]
    cases hctx with
    | rightR hp hpc hl1 hlb1 =>
      rw [rootColor_node] at hw hlb1
      rw [hw] at hlb1
      simp [RED, BLACK] at hlb1
    | rightB hp hw1 =>
      rw [rootColor_node] at hw
      subst hw
      obtain ⟨hwl1, hwr1, hwlb, hwrb⟩ := isRB_red_inv hw1
      have hred2 := redden_isRB hwr1 hwrb hbb.2 hbb.1
      have hxt : IsRB x h := irb_black hirb hx
      exact ih h (CtxRB.rightB hp hwl1) (outB_right (outB_pop_right hob) (fun _ => rfl))
        (Or.inr ⟨_, _, _, _, rfl, hred2.1, hxt⟩)
  | case10 p c s k x hx color ws wl wk wr hw hnbb hw2 =>
    intro h hctx hob hirb
    rw [fixUpErase.eq_def]
    simp only []
    rw [dif_neg hx, dif_pos hw]
    simp only [if_neg hnbb]
    cases hctx with
    | rightR hp hpc hl1 hlb1 =>
      rw [rootColor_node] at hw hlb1
      rw [hw] at hlb1
      simp [RED, BLACK] at hlb1
    | rightB hp hw1 =>
      rw [rootColor_node] at hw
      subst hw
      obtain ⟨hwl1, hwr1, hwlb, hwrb⟩ := isRB_red_inv hw1
      have hxt : IsRB x h := irb_black hirb hx
      have hor : rootColor (leftT wr) = RED ∨ rootColor (rightT wr) = RED := by
        by_cases h1 : rootColor (rightT wr) = BLACK
        · exact Or.inl (red_of_not_black (fun h2 => hnbb ⟨h1, h2⟩))
        · exact Or.inr (red_of_not_black h1)
      exact eraseCase4R_isRB RED (s - sz wl - 1) k (CtxRB.rightB hp hwl1)
        (fun _ => rfl) hxt hwr1 hwrb hor
  | case11 p c s k x hx hnil1 hnil2 =>
    intro h hctx hob hirb
    simp [Tree.rootColor, RED, BLACK] at hnil1
  | case12 p c s l k x hx hwn hbb ih =>
    intro h hctx hob hirb
    rw [fixUpErase.eq_def]
    simp only []
    rw [dif_neg hx, dif_neg hwn]
    simp only [if_pos hbb]
    have hxt : IsRB x h := irb_black hirb hx
    have hwnb : rootColor l = BLACK := black_of_not_red hwn
    cases hctx with
    | rightB hp hl1 =>
      have hred2 := redden_isRB hl1 hwnb hbb.2 hbb.1
      exact ih (h + 1) hp (outB_pop_right hob) (Or.inl (IsRB.black hred2.1 hxt))
    | rightR hp hpc hl1 hlb1 =>
      have hred2 := redden_isRB hl1 hwnb hbb.2 hbb.1
      exact ih h hp (outB_pop_right hob) (Or.inr ⟨_, _, _, _, rfl, hred2.1, hxt⟩)
  | case13 p c s l k x hx hwn hnbb =>
    intro h hctx hob hirb
    rw [fixUpErase.eq_def]
    simp only []
    rw [dif_neg hx, dif_neg hwn]
    simp only [if_neg hnbb]
    have hxt : IsRB x h := irb_black hirb hx
    have hwnb : rootColor l = BLACK := black_of_not_red hwn
    have hor : rootColor (leftT l) = RED ∨ rootColor (rightT l) = RED := by
      by_cases h1 : rootColor (rightT l) = BLACK
      · exact Or.inl (red_of_not_black (fun h2 => hnbb ⟨h1, h2⟩))
      · exact Or.inr (red_of_not_black h1)
    cases hctx with
    | rightB hp hl1 =>
      exact eraseCase4R_isRB BLACK s k hp
        (fun h2 => absurd h2 (by simp [RED, BLACK])) hxt hl1 hwnb hor
    | rightR hp hpc hl1 hlb1 =>
      exact eraseCase4R_isRB RED s k hp (fun _ => hpc) hxt hl1 hlb1 hor


theorem decSizes_root {ctx : Ctx α} (h : Ctx.decSizes ctx = Ctx.root) : ctx = Ctx.root := by
  cases ctx with
  | root => rfl
  | left p c s k r => simp [Ctx.decSizes] at h
  | right p c s l k => simp [Ctx.decSizes] at h

theorem searchLoc_ctxRB [LinearOrder α] (key : α) :
    ∀ (t : Tree α) (ctx : Ctx α) (h : Nat), CtxRB ctx h → Ctx.OutB ctx → IsRB t h →
      (Ctx.color ctx = RED → rootColor t = BLACK) →
      (ctx = Ctx.root → rootColor t = BLACK) →
      ∃ h', CtxRB (searchLoc key ctx t).1 h' ∧ IsRB (searchLoc key ctx t).2 h' ∧
        Ctx.OutB (searchLoc key ctx t).1 ∧
        (Ctx.color (searchLoc key ctx t).1 = RED →
          rootColor (searchLoc key ctx t).2 = BLACK) ∧
        ((searchLoc key ctx t).1 = Ctx.root →
          rootColor (searchLoc key ctx t).2 = BLACK) := by
  intro t
  induction t with
  | nil =>
    intro ctx h hctx hob hz hbc hbr
    exact ⟨h, hctx, hz, hob, fun _ => rootColor_nil, fun _ => rootColor_nil⟩
  | node c s l k r ihl ihr =>
    intro ctx h hctx hob hz hbc hbr
    rw [searchLoc]
    by_cases hlt : key < k
    · rw [if_pos hlt]
      cases hz with
      | red hl hr c1 c2 =>
        have hbcc : Ctx.color ctx = BLACK := by
          by_cases hcc : Ctx.color ctx = RED
          · have h2 := hbc hcc
            rw [rootColor_node] at h2
            exact absurd h2 (by simp [RED, BLACK])
          · exact black_of_not_red hcc
        refine ihl (Ctx.left ctx RED s k r) h (CtxRB.leftR hctx hbcc hr c2)
          (outB_left hob ?_) hl (fun _ => c1) (fun hroot => absurd hroot (by simp))
        intro hroot
        have h2 := hbr hroot
        rw [rootColor_node] at h2
        exact absurd h2 (by simp [RED, BLACK])
      | black hl hr =>
        refine ihl (Ctx.left ctx BLACK s k r) _ (CtxRB.leftB hctx hr)
          (outB_left hob (fun _ => rfl)) hl ?_ (fun hroot => absurd hroot (by simp))
        intro hcc
        rw [ctxColor_left] at hcc
        exact absurd hcc (by simp [RED, BLACK])
    · rw [if_neg hlt]
      by_cases hgt : k < key
      · rw [if_pos hgt]
        cases hz with
        | red hl hr c1 c2 =>
          have hbcc : Ctx.color ctx = BLACK := by
            by_cases hcc : Ctx.color ctx = RED
            · have h2 := hbc hcc
              rw [rootColor_node] at h2
              exact absurd h2 (by simp [RED, BLACK])
            · exact black_of_not_red hcc
          refine ihr (Ctx.right ctx RED s l k) h (CtxRB.rightR hctx hbcc hl c1)
            (outB_right hob ?_) hr (fun _ => c2) (fun hroot => absurd hroot (by simp))
          intro hroot
          have h2 := hbr hroot
          rw [rootColor_node] at h2
          exact absurd h2 (by simp [RED, BLACK])
        | black hl hr =>
          refine ihr (Ctx.right ctx BLACK s l k) _ (CtxRB.rightB hctx hl)
            (outB_right hob (fun _ => rfl)) hr ?_ (fun hroot => absurd hroot (by simp))
          intro hcc
          rw [ctxColor_right] at hcc
          exact absurd hcc (by simp [RED, BLACK])
      · rw [if_neg hgt]
        exact ⟨h, hctx, hz, hob, hbc, hbr⟩

theorem minNode_shape : ∀ {t : Tree α}, t ≠ Tree.nil →
    ∃ yc ys yk yr, minNode t = Tree.node yc ys Tree.nil yk yr := by
  intro t
  induction t with
  | nil => exact fun h => absurd rfl h
  | node c s l k r ih =>
    intro _
    by_cases hl : l = Tree.nil
    · subst hl
      exact ⟨c, s, k, r, by simp [minNode, Tree.isNil]⟩
    · have hnl : isNil l = false := by
        cases l
        · exact absurd rfl hl
        · rfl
      obtain ⟨yc, ys, yk, yr, hmin⟩ := ih hl
      exact ⟨yc, ys, yk, yr, by rw [minNode, if_neg (by simp [hnl])]; exact hmin⟩

theorem spliceSpine_ctxRB :
    ∀ {t : Tree α} {h : Nat}, IsRB t h → t ≠ Tree.nil →
    ∀ {fctx : Ctx α}, CtxRB fctx h → Ctx.OutB fctx →
      (Ctx.color fctx = RED → rootColor t = BLACK) →
      (fctx = Ctx.root → rootColor t = BLACK) →
      ∃ hy : Nat,
        IsRB (spliceSpine fctx t).2 hy ∧
        Ctx.OutB (spliceSpine fctx t).1 ∧
        (rootColor (minNode t) = BLACK → CtxRB (spliceSpine fctx t).1 (hy + 1)) ∧
        (rootColor (minNode t) = RED → CtxRB (spliceSpine fctx t).1 hy ∧
          rootColor (spliceSpine fctx t).2 = BLACK) := by
  intro t
  induction t with
  | nil => exact fun _ h _ => absurd rfl h
  | node c s l k r ih =>
    intro h hz _ fctx hctx hob hbc hbr
    by_cases hl : l = Tree.nil
    · subst hl
      rw [spliceSpine, if_pos isNil_nil]
      have hminc : minNode (Tree.node c s Tree.nil k r) = Tree.node c s Tree.nil k r := by
        simp [minNode, Tree.isNil]
      cases hz with
      | red hl0 hr0 c1 c2 =>
        have h0 : h = 0 := isRB_nil_h hl0
        subst h0
        refine ⟨0, hr0, hob, fun hb => ?_, fun _ => ⟨hctx, c2⟩⟩
        rw [hminc, rootColor_node] at hb
        simp [RED, BLACK] at hb
      | black hl0 hr0 =>
        have h0 := isRB_nil_h hl0
        subst h0
        refine ⟨0, hr0, hob, fun _ => hctx, fun hb => ?_⟩
        rw [hminc, rootColor_node] at hb
        simp [RED, BLACK] at hb
    · have hnl : isNil l = false := by
        cases l
        · exact absurd rfl hl
        · rfl
      rw [spliceSpine, if_neg (by simp [hnl])]
      have hminc : minNode (Tree.node c s l k r) = minNode l := by
        rw [minNode, if_neg (by simp [hnl])]
      rw [hminc]
      cases hz with
      | red hl0 hr0 c1 c2 =>
        have hbcc : Ctx.color fctx = BLACK := by
          by_cases hcc : Ctx.color fctx = RED
          · have h2 := hbc hcc
            rw [rootColor_node] at h2
            exact absurd h2 (by simp [RED, BLACK])
          · exact black_of_not_red hcc
        refine ih hl0 hl (CtxRB.leftR hctx hbcc hr0 c2) (outB_left hob ?_)
          (fun _ => c1) (fun hroot => absurd hroot (by simp))
        intro hroot
        have h2 := hbr hroot
        rw [rootColor_node] at h2
        exact absurd h2 (by simp [RED, BLACK])
      | black hl0 hr0 =>
        refine ih hl0 hl (CtxRB.leftB hctx hr0) (outB_left hob (fun _ => rfl)) ?_
          (fun hroot => absurd hroot (by simp))
        intro hcc
        rw [ctxColor_left] at hcc
        exact absurd hcc (by simp [RED, BLACK])


theorem eraseAt_isRB [LinearOrder α] {ctx : Ctx α} {zc : Bool} {zs : Nat} {zl : Tree α}
    {zk : α} {zr : Tree α} {h : Nat}
    (hctx : CtxRB ctx h) (hob : Ctx.OutB ctx)
    (hz : IsRB (Tree.node zc zs zl zk zr) h)
    (hbc : Ctx.color ctx = RED → zc = BLACK)
    (hbr : ctx = Ctx.root → zc = BLACK) :
    ∃ H, IsRB (eraseAt ctx zc zs zl zk zr).1 H ∧
      rootColor (eraseAt ctx zc zs zl zk zr).1 = BLACK := by
  have hctx1 : CtxRB (Ctx.decSizes ctx) h := decSizes_ctxRB hctx
  have hob1 := outB_decSizes hob
  have hbc1 : Ctx.color (Ctx.decSizes ctx) = RED → zc = BLACK := by
    rw [ctxColor_decSizes]
    exact hbc
  have hbr1 : Ctx.decSizes ctx = Ctx.root → zc = BLACK :=
    fun h2 => hbr (decSizes_root h2)
  by_cases hl : zl = Tree.nil
  · subst hl
    rw [eraseAt.eq_def]
    simp only [isNil_nil, if_true, reduceIte]
    by_cases hcc : zc = BLACK
    · subst hcc
      rw [if_pos rfl]
      obtain ⟨h', he, hl0, hr0⟩ := isRB_black_inv hz
      have h00 := isRB_nil_h hl0
      subst h00
      subst he
      exact fixUpErase_isRB _ _ 0 hctx1 hob1 (Or.inl hr0)
    · rw [if_neg hcc]
      have hcr := red_of_not_black hcc
      subst hcr
      obtain ⟨hl0, hr0, hlb0, hrb0⟩ := isRB_red_inv hz
      obtain ⟨H, hP⟩ := plug_isRB hctx1 hr0 (Or.inl hrb0)
      exact ⟨H, hP, plug_rootBlack hob1 (fun _ => hrb0)⟩
  · have hnl : isNil zl = false := by
      cases zl
      · exact absurd rfl hl
      · rfl
    by_cases hr : zr = Tree.nil
    · subst hr
      rw [eraseAt.eq_def]
      simp only [hnl, isNil_nil, if_true, Bool.false_eq_true, if_false, reduceIte]
      by_cases hcc : zc = BLACK
      · subst hcc
        rw [if_pos rfl]
        obtain ⟨h', he, hl0, hr0⟩ := isRB_black_inv hz
        have h00 := isRB_nil_h hr0
        subst h00
        subst he
        exact fixUpErase_isRB _ _ 0 hctx1 hob1 (Or.inl hl0)
      · rw [if_neg hcc]
        have hcr := red_of_not_black hcc
        subst hcr
        obtain ⟨hl0, hr0, hlb0, hrb0⟩ := isRB_red_inv hz
        obtain ⟨H, hP⟩ := plug_isRB hctx1 hl0 (Or.inl hlb0)
        exact ⟨H, hP, plug_rootBlack hob1 (fun _ => hlb0)⟩
    · rcases zr with _ | ⟨rc, rs, rl, rk, rr⟩
      · exact absurd rfl hr
      -- common child height hc and the new parent frame for y's position
      obtain ⟨hc, hzl, hzr, hfr⟩ :
          ∃ hc, IsRB zl hc ∧ IsRB (Tree.node rc rs rl rk rr) hc ∧
            ∀ (sf : Nat) (fk : α), CtxRB (Ctx.right (Ctx.decSizes ctx) zc sf zl fk) hc ∧
              (Ctx.color (Ctx.right (Ctx.decSizes ctx) zc sf zl fk) = RED →
                rootColor (Tree.node rc rs rl rk rr) = BLACK) := by
        by_cases hcc : zc = BLACK
        · subst hcc
          obtain ⟨h', he, hl0, hr0⟩ := isRB_black_inv hz
          subst he
          refine ⟨h', hl0, hr0, fun sf fk => ⟨CtxRB.rightB hctx1 hl0, ?_⟩⟩
          intro h2
          rw [ctxColor_right] at h2
          exact absurd h2 (by simp [RED, BLACK])
        · have hcr := red_of_not_black hcc
          subst hcr
          obtain ⟨hl0, hr0, hlb0, hrb0⟩ := isRB_red_inv hz
          have hbcc : Ctx.color (Ctx.decSizes ctx) = BLACK := by
            by_cases h2 : Ctx.color (Ctx.decSizes ctx) = RED
            · exact absurd (hbc1 h2) (by simp [RED, BLACK])
            · exact black_of_not_red h2
          exact ⟨h, hl0, hr0, fun sf fk =>
            ⟨CtxRB.rightR hctx1 hbcc hl0 hlb0, fun _ => hrb0⟩⟩
      have hobf : ∀ (sf : Nat) (fk : α),
          Ctx.OutB (Ctx.right (Ctx.decSizes ctx) zc sf zl fk) :=
        fun sf fk => outB_right hob1 (fun h2 => hbr1 h2)
      by_cases hrl : rl = Tree.nil
      · subst hrl
        rw [eraseAt.eq_def]
        simp only [hnl, isNil_nil, isNil_node, Bool.false_eq_true, if_false, if_true,
          reduceIte]
        by_cases hrc : rc = BLACK
        · subst hrc
          rw [if_pos rfl]
          obtain ⟨hc', he, hl0, hr0⟩ := isRB_black_inv hzr
          have h00 := isRB_nil_h hl0
          subst h00
          subst he
          exact fixUpErase_isRB _ _ 0 ((hfr _ _).1) (hobf _ _) (Or.inl hr0)
        · rw [if_neg hrc]
          have hcr := red_of_not_black hrc
          subst hcr
          obtain ⟨hl0, hr0, hlb0, hrb0⟩ := isRB_red_inv hzr
          have h00 := isRB_nil_h hl0
          subst h00
          obtain ⟨H, hP⟩ := plug_isRB ((hfr _ _).1) hr0 (Or.inl hrb0)
          exact ⟨H, hP, plug_rootBlack (hobf _ _) (fun h2 => absurd h2 (by simp))⟩
      · have hnrl : isNil rl = false := by
          cases rl
          · exact absurd rfl hrl
          · rfl
        obtain ⟨yc, ys, yk, yr, hmin⟩ :=
          minNode_shape (show (Tree.node rc rs rl rk rr) ≠ Tree.nil by simp)
        have hred : eraseAt ctx zc zs zl zk (Tree.node rc rs rl rk rr) =
            (if yc = BLACK then
              fixUpErase (spliceSpine (Ctx.right (Ctx.decSizes ctx) zc
                  (ys - sz yr + (rs - 1) + sz zl) zl yk) (Tree.node rc rs rl rk rr)).1
                (spliceSpine (Ctx.right (Ctx.decSizes ctx) zc
                  (ys - sz yr + (rs - 1) + sz zl) zl yk) (Tree.node rc rs rl rk rr)).2
             else
              Ctx.plug (spliceSpine (Ctx.right (Ctx.decSizes ctx) zc
                  (ys - sz yr + (rs - 1) + sz zl) zl yk) (Tree.node rc rs rl rk rr)).1
                (spliceSpine (Ctx.right (Ctx.decSizes ctx) zc
                  (ys - sz yr + (rs - 1) + sz zl) zl yk) (Tree.node rc rs rl rk rr)).2,
             successorAt (Ctx.decSizes ctx)
               (Tree.node zc zs zl zk (Tree.node rc rs rl rk rr))) := by
          rw [eraseAt.eq_def]
          simp only [hnl, hnrl, isNil_nil, isNil_node, Bool.false_eq_true, if_false,
            if_true, reduceIte]
          rw [hmin]
        rw [hred]
        obtain ⟨hy, hyr, hyob, hyB, hyR⟩ := spliceSpine_ctxRB hzr (by simp)
          ((hfr (ys - sz yr + (rs - 1) + sz zl) yk).1)
          (hobf (ys - sz yr + (rs - 1) + sz zl) yk)
          ((hfr (ys - sz yr + (rs - 1) + sz zl) yk).2)
          (fun h2 => absurd h2 (by simp))
        have hmc : rootColor (minNode (Tree.node rc rs rl rk rr)) = yc := by
          rw [hmin, rootColor_node]
        by_cases hycc : yc = BLACK
        · subst hycc
          rw [if_pos rfl]
          simp only []
          exact fixUpErase_isRB _ _ hy (hyB hmc) hyob (Or.inl hyr)
        · rw [if_neg hycc]
          have hycr := red_of_not_black hycc
          subst hycr
          obtain ⟨hyc1, hyc2⟩ := hyR hmc
          obtain ⟨H, hP⟩ := plug_isRB hyc1 hyr (Or.inl hyc2)
          simp only []
          exact ⟨H, hP, plug_rootBlack hyob (fun _ => hyc2)⟩

theorem eraseKey_isRB [LinearOrder α] {t : Tree α} {h : Nat} (hz : IsRB t h)
    (hb : rootColor t = BLACK) (key : α) :
    ∃ H, IsRB (eraseKey t key).1 H ∧ rootColor (eraseKey t key).1 = BLACK := by
  have hS := searchLoc_ctxRB key t Ctx.root h CtxRB.root trivial hz
    (fun hcc => absurd hcc (by simp [Ctx.color, RED, BLACK])) (fun _ => hb)
  rcases hsl : searchLoc key Ctx.root t with ⟨ctx0, t0⟩
  rw [hsl] at hS
  simp only [] at hS
  obtain ⟨h', hc', hz', hob', hbc', hbr'⟩ := hS
  cases t0 with
  | nil =>
    have hred : eraseKey t key = (t, none) := by rw [eraseKey.eq_def, hsl]
    rw [hred]
    exact ⟨h, hz, hb⟩
  | node zc zs zl zk zr =>
    have hred : eraseKey t key = eraseAt ctx0 zc zs zl zk zr := by
      rw [eraseKey.eq_def, hsl]
    rw [hred]
    refine eraseAt_isRB hc' hob' hz' ?_ ?_
    · intro hcc
      have h2 := hbc' hcc
      rwa [rootColor_node] at h2
    · intro hroot
      have h2 := hbr' hroot
      rwa [rootColor_node] at h2

theorem reachable_isRB [LinearOrder α] : ∀ {t : Tree α}, Reachable t →
    rootColor t = BLACK ∧ ∃ h, IsRB t h := by
  intro t ht
  induction ht with
  | empty => exact ⟨rfl, 0, IsRB.nil⟩
  | ins t key hR ih =>
    obtain ⟨hb, h, hz⟩ := ih
    obtain ⟨H, h1, h2⟩ := insert_isRB hz hb key
    exact ⟨h2, H, h1⟩
  | del t key hR ih =>
    obtain ⟨hb, h, hz⟩ := ih
    obtain ⟨H, h1, h2⟩ := eraseKey_isRB hz hb key
    exact ⟨h2, H, h1⟩


/-! ### Helper lemmas for the claims -/

theorem deepCopyGo_nilQ [LinearOrder α] (dst : Tree α) : deepCopyGo [] dst = dst := by
  rw [deepCopyGo.eq_def]

theorem deepCopyGo_consNode [LinearOrder α] (c : Bool) (s : Nat) (l : Tree α) (k : α)
    (r : Tree α) (q : List (Tree α)) (dst : Tree α) :
    deepCopyGo (Tree.node c s l k r :: q) dst =
      deepCopyGo (q ++ (if isNil l then [] else [l]) ++ (if isNil r then [] else [r]))
        (insert dst k).1 := by
  rw [deepCopyGo.eq_def]

theorem reachable_insertList [LinearOrder α] :
    ∀ (xs : List α) (t : Tree α), Reachable t → Reachable (insertList t xs)
  | [], _, ht => ht
  | x :: xs, t, ht => reachable_insertList xs (insert t x).1 (Reachable.ins t x ht)

/-! ### The claims -/

/-- C1: on every reachable tree state, orderOfKey(key) returns the number
of keys in the container that are strictly smaller than key, whether or
not key itself is present (RedBlackTree.hpp lines 342-361). -/
theorem claim_C1_orderOfKey_counts_smaller [LinearOrder α] (t : Tree α)
    (ht : Reachable t) (k : α) :
    orderOfKey t k = ((flatten t).filter (fun x => decide (x < k))).length := by
  obtain ⟨ho, hs⟩ := reachable_invariant ht
  exact orderOfKey_spec ho hs k

theorem claim_C1_witness :
    orderOfKey scenarioTree 4 =
      ((flatten scenarioTree).filter (fun x => decide (x < 4))).length ∧
    orderOfKey scenarioTree 4 = 2 :=
  ⟨claim_C1_orderOfKey_counts_smaller scenarioTree
      (reachable_insertList _ _ Reachable.empty) 4,
   by decide⟩

/-- C2: on every reachable tree state, findByOrder(rank) returns the end
iterator exactly when rank ≥ size(); for rank < size() it returns the
position holding the rank-th smallest key (the in-order key sequence is
sorted and the returned key is its entry at index rank)
(RedBlackTree.hpp lines 369-385). -/
theorem claim_C2_findByOrder_rank [LinearOrder α] (t : Tree α) (ht : Reachable t) :
    List.Sorted (· < ·) (flatten t) ∧
    (∀ rank : Nat, findByOrder t rank = Tree.nil ↔ sz t ≤ rank) ∧
    (∀ rank : Nat, rank < sz t → findByOrderKey t rank = (flatten t)[rank]?) := by
  obtain ⟨ho, hs⟩ := reachable_invariant ht
  have hsz := sz_eq_realSize hs
  have hlen := realSize_eq_length t
  refine ⟨ordered_iff_sorted.1 ho, fun rank => ⟨fun hn => ?_, fun hge => ?_⟩,
    fun rank h => (findByOrder_spec hs rank).1 (by omega)⟩
  · by_contra hlt
    push_neg at hlt
    have h1 := (findByOrder_spec hs rank).1 (by omega)
    rw [findByOrderKey, hn] at h1
    have h2 : rank < (flatten t).length := by omega
    rw [List.getElem?_eq_getElem h2] at h1
    exact Option.noConfusion h1
  · exact (findByOrder_spec hs rank).2 (by omega)

theorem claim_C2_witness :
    (List.Sorted (· < ·) (flatten scenarioTree) ∧
     (∀ rank : Nat, findByOrder scenarioTree rank = Tree.nil ↔ sz scenarioTree ≤ rank) ∧
     (∀ rank : Nat, rank < sz scenarioTree →
        findByOrderKey scenarioTree rank = (flatten scenarioTree)[rank]?)) ∧
    findByOrderKey scenarioTree 0 = some 1 ∧
    findByOrderKey scenarioTree 4 = some 8 ∧
    findByOrder scenarioTree 5 = Tree.nil :=
  ⟨claim_C2_findByOrder_rank scenarioTree (reachable_insertList _ _ Reachable.empty),
   by decide, by decide, by decide⟩

/-- C3: on every reachable tree state the two order-statistic operations
are mutually inverse: for every index i < size() the key at findByOrder(i)
has orderOfKey equal to i, and for every key k present in the tree,
findByOrder(orderOfKey(k)) is the same position as find(k)
(RedBlackTree.hpp lines 342-385, 486-497). -/
theorem claim_C3_order_find_inverse [LinearOrder α] (t : Tree α) (ht : Reachable t) :
    (∀ i : Nat, i < sz t → ∃ k, findByOrderKey t i = some k ∧ orderOfKey t k = i) ∧
    (∀ k : α, k ∈ flatten t → findByOrderKey t (orderOfKey t k) = findKey t k) := by
  obtain ⟨ho, hs⟩ := reachable_invariant ht
  have hsz := sz_eq_realSize hs
  have hlen := realSize_eq_length t
  constructor
  · intro i hi
    have hilen : i < (flatten t).length := by omega
    refine ⟨(flatten t)[i], ?_, ?_⟩
    · rw [(findByOrder_spec hs i).1 (by omega), List.getElem?_eq_getElem hilen]
    · rw [orderOfKey_spec ho hs]
      exact sorted_filter_lt_get (ordered_iff_sorted.1 ho) i hilen
  · intro k hk
    obtain ⟨l₁, l₂, heq, hlt, hgt⟩ := mem_split_of_ordered ho hk
    have hrank : orderOfKey t k = l₁.length := by
      rw [orderOfKey_spec ho hs k, heq, filter_lt_split hlt hgt]
    have hltlen : l₁.length < realSize t := by
      rw [realSize_eq_length, heq]
      simp
    have h1 := (findByOrder_spec hs (orderOfKey t k)).1 (by omega)
    rw [hrank] at h1
    rw [hrank, h1, heq, List.getElem?_append_right (le_refl _)]
    simp [(search_found t ho hk).2]

theorem claim_C3_witness :
    ((∀ i : Nat, i < sz scenarioTree →
        ∃ k, findByOrderKey scenarioTree i = some k ∧ orderOfKey scenarioTree k = i) ∧
     (∀ k : Nat, k ∈ flatten scenarioTree →
        findByOrderKey scenarioTree (orderOfKey scenarioTree k) = findKey scenarioTree k)) ∧
    findByOrderKey scenarioTree 2 = some 4 ∧ orderOfKey scenarioTree 4 = 2 ∧
    findKey scenarioTree 5 = some 5 :=
  ⟨claim_C3_order_find_inverse scenarioTree (reachable_insertList _ _ Reachable.empty),
   by decide, by decide, by decide⟩

/-- C4: on every reachable tree state, every node's stored size field
equals 1 + (size of left subtree) + (size of right subtree), with the
sentinel holding size 0 (SizeOk); and a left or right rotation applied to
any size-correct tree yields a size-correct tree, i.e. the updateSize
calls in rotateLeft/rotateRight (lines 517-575) restore the invariant. -/
theorem claim_C4_size_invariant [LinearOrder α] (t : Tree α) (ht : Reachable t) :
    SizeOk t ∧
    ∀ u : Tree α, SizeOk u → SizeOk (rotateLeft u) ∧ SizeOk (rotateRight u) :=
  ⟨(reachable_invariant ht).2,
   fun _ hu => ⟨rotateLeft_sizeOk hu, rotateRight_sizeOk hu⟩⟩

theorem claim_C4_witness :
    SizeOk scenarioTree ∧ SizeOk (rotateLeft scenarioTree) ∧
      SizeOk (rotateRight scenarioTree) :=
  ⟨(claim_C4_size_invariant scenarioTree (reachable_insertList _ _ Reachable.empty)).1,
   ((claim_C4_size_invariant scenarioTree
      (reachable_insertList _ _ Reachable.empty)).2 scenarioTree
      (claim_C4_size_invariant scenarioTree
        (reachable_insertList _ _ Reachable.empty)).1).1,
   ((claim_C4_size_invariant scenarioTree
      (reachable_insertList _ _ Reachable.empty)).2 scenarioTree
      (claim_C4_size_invariant scenarioTree
        (reachable_insertList _ _ Reachable.empty)).1).2⟩

/-- C5: on every reachable tree state the red-black coloring invariant
holds: the root is BLACK, every RED real node has only BLACK children,
every path from the root down to a descendant sentinel passes the same
number of BLACK real nodes (the black-height), and the sentinel itself is
BLACK (RedBlackTree.hpp lines 586-625, 669-724). -/
theorem claim_C5_rb_invariant [LinearOrder α] (t : Tree α) (ht : Reachable t) :
    rootColor t = BLACK ∧ (∃ h, IsRB t h) ∧
      rootColor (Tree.nil : Tree α) = BLACK := by
  obtain ⟨h1, h2⟩ := reachable_isRB ht
  exact ⟨h1, h2, rfl⟩

theorem claim_C5_witness :
    rootColor scenarioTree = BLACK ∧ (∃ h, IsRB scenarioTree h) ∧
      rootColor (Tree.nil : Tree Nat) = BLACK :=
  claim_C5_rb_invariant scenarioTree (reachable_insertList _ _ Reachable.empty)

/-- C6: on every reachable tree state, erase(k) for a present key k removes
exactly k (the remaining keys keep their relative order and the size drops
by one) and returns the iterator to k's successor, or end() when k was the
largest; for an absent key the tree is left entirely unchanged and end()
is returned (RedBlackTree.hpp lines 333-340, 627-724). -/
theorem claim_C6_erase_removes_key [LinearOrder α] (t : Tree α) (ht : Reachable t)
    (k : α) :
    (k ∈ flatten t →
      ∃ l₁ l₂, flatten t = l₁ ++ k :: l₂ ∧
        flatten (eraseKey t k).1 = l₁ ++ l₂ ∧
        sz (eraseKey t k).1 = sz t - 1 ∧
        (eraseKey t k).2 = l₂.head?) ∧
    (k ∉ flatten t → eraseKey t k = (t, none)) := by
  obtain ⟨ho, hs⟩ := reachable_invariant ht
  refine ⟨fun hk => ?_, fun hk => eraseKey_absent hk⟩
  obtain ⟨l₁, l₂, heq, hfl, hsok, hsnd⟩ := eraseKey_found ho hs hk
  refine ⟨l₁, l₂, heq, hfl, ?_, hsnd⟩
  have h1 := sz_eq_realSize hs
  have h2 := sz_eq_realSize hsok
  have h3 := realSize_eq_length t
  have h4 := realSize_eq_length (eraseKey t k).1
  rw [heq] at h3
  rw [hfl] at h4
  simp only [List.length_append, List.length_cons] at h3 h4
  omega

theorem claim_C6_witness :
    (∃ l₁ l₂, flatten scenarioTree = l₁ ++ 3 :: l₂ ∧
      flatten (eraseKey scenarioTree 3).1 = l₁ ++ l₂ ∧
      sz (eraseKey scenarioTree 3).1 = sz scenarioTree - 1 ∧
      (eraseKey scenarioTree 3).2 = l₂.head?) ∧
    flatten (eraseKey scenarioTree 3).1 = [1, 4, 5, 8] ∧
    (eraseKey scenarioTree 3).2 = some 4 ∧
    eraseKey scenarioTree 9 = (scenarioTree, none) :=
  ⟨(claim_C6_erase_removes_key scenarioTree
      (reachable_insertList _ _ Reachable.empty) 3).1 (by decide),
   by decide, by decide,
   (claim_C6_erase_removes_key scenarioTree
      (reachable_insertList _ _ Reachable.empty) 9).2 (by decide)⟩

/-- C7: on every reachable tree state, inserting a key that is already
present returns the existing position together with inserted = false and
leaves the tree entirely unchanged, size fields and colors included
(RedBlackTree.hpp lines 307-331). -/
theorem claim_C7_duplicate_insert_noop [LinearOrder α] (t : Tree α)
    (ht : Reachable t) (k : α) (hk : k ∈ flatten t) :
    insert t k = (t, some k, false) :=
  insert_found (reachable_invariant ht).1 hk

theorem claim_C7_witness :
    (4 : Nat) ∈ flatten scenarioTree ∧
    insert scenarioTree 4 = (scenarioTree, some 4, false) :=
  ⟨by decide,
   claim_C7_duplicate_insert_noop scenarioTree
     (reachable_insertList _ _ Reachable.empty) 4 (by decide)⟩

/-- C8: copy construction does give the new tree the same logical content
as the source, but copy assignment does not: operator= (lines 252-259)
calls deepCopy without clearing the destination first, so the source keys
are merged into the destination's previous contents.  Concretely,
assigning a tree holding {2} onto a tree holding {1} leaves the
destination holding {1, 2}, not {2}.  This refutes the
copy-assignment half of the claim. -/
theorem claim_C8_copy_assign_merges :
    flatten (copyCtor (insertList (Tree.nil : Tree Nat) [2])) = [2] ∧
    flatten (copyAssign (insertList (Tree.nil : Tree Nat) [1])
      (insertList (Tree.nil : Tree Nat) [2])) = [1, 2] ∧
    ([1, 2] : List Nat) ≠ [2] := by
  have e1 : (insertList (Tree.nil : Tree Nat) [1]) =
      Tree.node BLACK 1 Tree.nil 1 Tree.nil := by decide
  have e2 : (insertList (Tree.nil : Tree Nat) [2]) =
      Tree.node BLACK 1 Tree.nil 2 Tree.nil := by decide
  refine ⟨?_, ?_, by decide⟩
  · rw [e2, copyCtor, deepCopy, if_neg (by decide), deepCopyGo_consNode]
    simp only [isNil_nil, if_pos, List.append_nil, List.nil_append]
    rw [deepCopyGo_nilQ]
    decide
  · rw [e1, e2, copyAssign, deepCopy, if_neg (by decide), deepCopyGo_consNode]
    simp only [isNil_nil, if_pos, List.append_nil, List.nil_append]
    rw [deepCopyGo_nilQ]
    decide

/-- C9: on every reachable non-empty set of recorded durations, the
stopwatch median is the value selected by findByOrder(n/2) when n is odd,
and the average (integer mean) of the values selected by
findByOrder(n/2 - 1) and findByOrder(n/2) when n is even — equivalently
the entries at those indices of the sorted key sequence
(Stopwatch.hpp lines 168-177). -/
theorem claim_C9_median_order_statistics (t : Tree Nat) (ht : Reachable t)
    (hne : sz t ≠ 0) :
    (sz t % 2 = 1 →
      stopwatchMedian t = ((flatten t)[sz t / 2]?).getD 0) ∧
    (sz t % 2 = 0 →
      stopwatchMedian t =
        (((flatten t)[sz t / 2 - 1]?).getD 0 + ((flatten t)[sz t / 2]?).getD 0) / 2) ∧
    List.Sorted (· < ·) (flatten t) := by
  obtain ⟨ho, hs⟩ := reachable_invariant ht
  have hsz := sz_eq_realSize hs
  have hlen := realSize_eq_length t
  refine ⟨fun hodd => ?_, fun heven => ?_, ordered_iff_sorted.1 ho⟩
  · rw [stopwatchMedian, if_neg hne, if_neg (by omega : ¬(sz t % 2 = 0 ∧ 2 ≤ sz t))]
    simp only [Nat.sub_zero]
    rw [(findByOrder_spec hs (sz t / 2)).1 (by omega)]
    omega
  · rw [stopwatchMedian, if_neg hne, if_pos (by omega : sz t % 2 = 0 ∧ 2 ≤ sz t)]
    rw [(findByOrder_spec hs (sz t / 2)).1 (by omega),
      (findByOrder_spec hs (sz t / 2 - 1)).1 (by omega)]
    rw [Nat.add_comm]

theorem claim_C9_witness :
    sz medianTreeEven ≠ 0 ∧
    (sz medianTreeEven % 2 = 0 →
      stopwatchMedian medianTreeEven =
        (((flatten medianTreeEven)[sz medianTreeEven / 2 - 1]?).getD 0 +
         ((flatten medianTreeEven)[sz medianTreeEven / 2]?).getD 0) / 2) ∧
    stopwatchMedian medianTreeEven = 25 ∧
    stopwatchMedian medianTreeOdd = 30 :=
  ⟨by decide,
   (claim_C9_median_order_statistics medianTreeEven
      (reachable_insertList _ _ Reachable.empty) (by decide)).2.1,
   by decide, by decide⟩

/-- C10: incrementing or decrementing the end iterator leaves it at end:
successor and predecessor applied to the sentinel return the sentinel
itself, whatever position context surrounds it, because the sentinel's
self-loops make the subtree test fail and the climb loop exit immediately
(RedBlackTree.hpp lines 442-466). -/
theorem claim_C10_end_iterator_fixed (α : Type) :
    ∀ ctx : Ctx α, successorAt ctx Tree.nil = none ∧
      predecessorAt ctx Tree.nil = none :=
  fun _ => ⟨rfl, rfl⟩


end Profiling
